import Mathlib

/-!
# Verification of the `KV_Store.py` log-structured key/value store

Shallow embedding of `src/KV_Store.py`: a two-tier in-memory write path
(an AVL tree for the first `memory_threshold` inserts, a Python dict —
named `red_black_tree` in the source — for the rest), on-disk sorted
segment files with a sparse index and a Bloom filter per segment, and a
compaction that folds all segments into one.

Modelling conventions:
* Keys are an abstract linearly ordered type `K`; values an abstract type
  `V` with decidable equality (the source stores arbitrary Python objects,
  keys are byte strings under lexicographic order).
* `pickle.dumps` is opaque; only the byte length of each serialized record
  matters for the file layout, so the development is parameterized by a
  length function `serLen : K × V → Nat` (every real pickle is at least
  one byte long, so theorems assume positivity where the layout needs it).
* The MD5-based hash family of the Bloom filter is opaque; it is modelled
  by an abstract function `H : K → Nat → Nat` (digest of the key salted
  with the hash index, before the `% size` reduction done in `_hashes`).
* Files and the segment directory are modelled as in-memory data: a
  segment file is its decoded content (record stream, sparse index,
  index position), the directory an association list from id `i`
  (filename `F{i}.sst`) to file.
-/

namespace KVStore

/-! ## Bloom filter (`class BloomFilter`) -/

/-- `BloomFilter.__init__`: `size`, `hash_count`, and `bit_array = [0] * size`. -/
structure BloomFilter where
  size : Nat
  hash_count : Nat
  bit_array : List Nat
deriving Repr, DecidableEq

namespace BloomFilter

/-- `BloomFilter(size, hash_count)` constructor. -/
def init (size : Nat := 1000) (hash_count : Nat := 3) : BloomFilter :=
  { size := size, hash_count := hash_count, bit_array := List.replicate size 0 }

/-- `_hashes`: the k salted digests reduced modulo `size`.  `H k i` stands for
`int(hashlib.md5((key + str(i)).encode()).hexdigest(), 16)`. -/
def hashes {K : Type} (H : K → Nat → Nat) (bf : BloomFilter) (key : K) : List Nat :=
  (List.range bf.hash_count).map (fun i => H key i % bf.size)

/-- `add`: set every hashed bit to 1. -/
def add {K : Type} (H : K → Nat → Nat) (bf : BloomFilter) (key : K) : BloomFilter :=
  { bf with bit_array := (hashes H bf key).foldl (fun arr hv => arr.set hv 1) bf.bit_array }

/-- `__contains__`: all hashed bits are truthy (non-zero). -/
def contains {K : Type} (H : K → Nat → Nat) (bf : BloomFilter) (key : K) : Bool :=
  (hashes H bf key).all (fun hv => bf.bit_array.getD hv 0 != 0)

/-- The loop body of `add`: set each listed bit to 1. -/
def setBits (arr : List Nat) (hvs : List Nat) : List Nat :=
  hvs.foldl (fun a hv => a.set hv 1) arr

end BloomFilter

/-! ## AVL tree (`class AVLNode`, `class AVLTree`)

Python's `None` child is the `nil` constructor; a Python `AVLNode` is the
`node` constructor carrying the stored `height` field. -/

inductive AVLNode (K V : Type) where
  | nil : AVLNode K V
  | node (key : K) (value : V) (height : Nat) (left right : AVLNode K V) : AVLNode K V
deriving Repr, DecidableEq

namespace AVLTree

variable {K V : Type}

/-- `_height`: stored height, 0 for `None`. -/
def height : AVLNode K V → Nat
  | .nil => 0
  | .node _ _ h _ _ => h

/-- `_balance_factor`: `_height(node.left) - _height(node.right)`.  Only ever
called on a non-`None` node in the source; `nil` is given the junk value 0. -/
def balance_factor : AVLNode K V → Int
  | .nil => 0
  | .node _ _ _ l r => (height l : Int) - height r

/-- `_rotate_left`.  The source reads `y = z.right` (crashing on `None`);
the degenerate patterns are unreachable in its use sites. -/
def rotate_left : AVLNode K V → AVLNode K V
  | .node zk zv _ zl (.node yk yv _ t2 yr) =>
      let z' : AVLNode K V := .node zk zv (1 + max (height zl) (height t2)) zl t2
      .node yk yv (1 + max (height z') (height yr)) z' yr
  | t => t

/-- `_rotate_right`. -/
def rotate_right : AVLNode K V → AVLNode K V
  | .node zk zv _ (.node yk yv _ yl t3) zr =>
      let z' : AVLNode K V := .node zk zv (1 + max (height t3) (height zr)) t3 zr
      .node yk yv (1 + max (height yl) (height z')) yl z'
  | t => t

def leftChild : AVLNode K V → AVLNode K V
  | .nil => .nil
  | .node _ _ _ l _ => l

def rightChild : AVLNode K V → AVLNode K V
  | .nil => .nil
  | .node _ _ _ _ r => r

/-- `node.left = l'` (keeps the stored height; `_rotate_*` recomputes it). -/
def setLeft : AVLNode K V → AVLNode K V → AVLNode K V
  | .nil, _ => .nil
  | .node k v h _ r, l' => .node k v h l' r

/-- `node.right = r'`. -/
def setRight : AVLNode K V → AVLNode K V → AVLNode K V
  | .nil, _ => .nil
  | .node k v h l _, r' => .node k v h l r'

/-- `key < child.key`; `False` stands for the crash on a `None` child
(unreachable whenever the guard `|balance| > 1` holds on a real AVL state). -/
def ltRootKey [LinearOrder K] (key : K) : AVLNode K V → Bool
  | .nil => false
  | .node k _ _ _ _ => decide (key < k)

/-- `key > child.key`. -/
def gtRootKey [LinearOrder K] (key : K) : AVLNode K V → Bool
  | .nil => false
  | .node k _ _ _ _ => decide (k < key)

/-- The postlude of `_insert`: compute the balance factor of the node with
its freshly updated height and apply the four rotation cases in source
order. -/
def rebalance [LinearOrder K] (key : K) (n : AVLNode K V) : AVLNode K V :=
  if balance_factor n > 1 ∧ ltRootKey key (leftChild n) then rotate_right n
  else if balance_factor n < -1 ∧ gtRootKey key (rightChild n) then rotate_left n
  else if balance_factor n > 1 ∧ gtRootKey key (leftChild n) then
    rotate_right (setLeft n (rotate_left (leftChild n)))
  else if balance_factor n < -1 ∧ ltRootKey key (rightChild n) then
    rotate_left (setRight n (rotate_right (rightChild n)))
  else n

/-- `_insert` (hence `insert`, which just replaces the root). -/
def insertNode [LinearOrder K] : AVLNode K V → K → V → AVLNode K V
  | .nil, key, value => .node key value 1 .nil .nil
  | .node k v h l r, key, value =>
    if key < k then
      let l' := insertNode l key value
      rebalance key (.node k v (1 + max (height l') (height r)) l' r)
    else if k < key then
      let r' := insertNode r key value
      rebalance key (.node k v (1 + max (height l) (height r')) l r')
    else
      .node k value h l r

/-- `in_order` / `_in_order`: in-order traversal as a list. -/
def in_order : AVLNode K V → List (K × V)
  | .nil => []
  | .node k v _ l r => in_order l ++ (k, v) :: in_order r

/-- The stored `height` fields are consistent (`height = 1 + max` of children). -/
def HeightsOk : AVLNode K V → Prop
  | .nil => True
  | .node _ _ h l r => h = 1 + max (height l) (height r) ∧ HeightsOk l ∧ HeightsOk r

/-- Every node's balance factor lies in `{-1, 0, 1}`. -/
def Balanced : AVLNode K V → Prop
  | .nil => True
  | .node _ _ _ l r => ((height l : Int) - height r).natAbs ≤ 1 ∧ Balanced l ∧ Balanced r

/-- `p` holds at every (non-`None`) node of the tree. -/
def AllNodes (p : AVLNode K V → Prop) : AVLNode K V → Prop
  | .nil => True
  | .node k v h l r => p (.node k v h l r) ∧ AllNodes p l ∧ AllNodes p r

/-- Insert-or-update into a key-sorted association list: the list-level
specification of what `_insert` does to the in-order traversal. -/
def insertPair [LinearOrder K] (k : K) (v : V) : List (K × V) → List (K × V)
  | [] => [(k, v)]
  | (k', v') :: rest =>
    if k < k' then (k, v) :: (k', v') :: rest
    else if k' < k then (k', v') :: insertPair k v rest
    else (k', v) :: rest

/-- Keys of the in-order traversal. -/
def keys (t : AVLNode K V) : List K := (in_order t).map Prod.fst

/-- The BST ordering invariant: in-order keys strictly ascending. -/
def Ordered [LT K] (t : AVLNode K V) : Prop := List.Sorted (· < ·) (keys t)

/-- Key-level shadow of `insertPair`. -/
def insertKey [LinearOrder K] (k : K) : List K → List K
  | [] => [k]
  | k' :: rest =>
    if k < k' then k :: k' :: rest
    else if k' < k then k' :: insertKey k rest
    else k' :: rest

/-- Heights consistent and every balance factor in `{-1, 0, 1}`, in one
recursive predicate. -/
def Avl : AVLNode K V → Prop
  | .nil => True
  | .node _ _ h l r =>
      Avl l ∧ Avl r ∧ h = 1 + max (height l) (height r) ∧
        ((height l : Int) - height r).natAbs ≤ 1

/-- When an insert grows the subtree height, the result leans toward the
side the key went to, and its root key sits on the correct side of the key.
This is the extra induction strengthening that makes the source's
key-comparison-driven rotation dispatch (`key < node.left.key` etc.)
provably pick the right rotation. -/
def GrowthOk [LT K] (k : K) : AVLNode K V → Prop
  | .nil => False
  | .node k' _ _ l r =>
      height l ≠ height r ∧ (height r < height l → k < k') ∧
        (height l < height r → k' < k)

end AVLTree

/-! ## Python dict model

`red_black_tree` (despite its name) and `all_data` in the source are plain
Python dicts: insertion-ordered association lists where writing an existing
key updates the value in place. -/

/-- `d[k] = v` on a Python dict. -/
def dictInsert {α β : Type} [DecidableEq α] : List (α × β) → α → β → List (α × β)
  | [], k, v => [(k, v)]
  | (k', v') :: rest, k, v =>
    if k' = k then (k', v) :: rest else (k', v') :: dictInsert rest k v

/-- `k in d`. -/
def dictContains {α β : Type} [DecidableEq α] (d : List (α × β)) (k : α) : Bool :=
  d.any (fun p => p.1 = k)

/-- `d[k]` as an option (reads are always guarded by `k in d` or
`try/except` in the source). -/
def dictGet {α β : Type} [DecidableEq α] (d : List (α × β)) (k : α) : Option β :=
  (d.find? (fun p => p.1 = k)).map Prod.snd

/-- `del d[k]` / `os.remove` on the directory map. -/
def dictRemove {α β : Type} [DecidableEq α] : List (α × β) → α → List (α × β)
  | [], _ => []
  | (k', v') :: rest, k => if k' = k then rest else (k', v') :: dictRemove rest k

/-! ## Python `sorted` on (key, value) pairs

The source sorts dict items; dict keys are distinct, so tuple comparison
never reaches the value component and any stable sort by key is
extensionally the same.  Modelled as insertion sort by key. -/

def insertSortedKV {K V : Type} [LinearOrder K] (p : K × V) :
    List (K × V) → List (K × V)
  | [] => [p]
  | q :: qs => if p.1 ≤ q.1 then p :: q :: qs else q :: insertSortedKV p qs

/-- Models `sorted(d.items())` for a dict `d` (distinct keys). -/
def sortKV {K V : Type} [LinearOrder K] (l : List (K × V)) : List (K × V) :=
  l.foldr insertSortedKV []

/-! ## Segment files (`SparseIndexSST.dump_to_file` / `.get`)

A segment file is modelled by its decoded content.  `pickle.dumps` lengths
are abstracted by `serLen`; `offsets` lists the byte offset at which each
record starts (the writer's running `position`), and `index_position` is
the writer's `f.tell()` after the last record — the footer value. -/

structure SegFile (K V : Type) where
  records : List (K × V)
  offsets : List Nat
  sparse_index : List (K × Nat)
  index_position : Nat
deriving Repr, DecidableEq

/-- Record start offsets (`position` before each write). -/
def offsetsFrom {K V : Type} (serLen : K × V → Nat) (pos : Nat) :
    List (K × V) → List Nat
  | [] => []
  | p :: rest => pos :: offsetsFrom serLen (pos + serLen p) rest

/-- Final `position` = `f.tell()` after the record stream = footer value. -/
def iposFrom {K V : Type} (serLen : K × V → Nat) (pos : Nat) : List (K × V) → Nat
  | [] => pos
  | p :: rest => iposFrom serLen (pos + serLen p) rest

/-- The sparse index built by the writer loop: an entry `(key, position)`
whenever `i % sparse_interval == 0`. -/
def sidxFrom {K V : Type} (serLen : K × V → Nat) (interval : Nat) (i pos : Nat) :
    List (K × V) → List (K × Nat)
  | [] => []
  | p :: rest =>
    if i % interval = 0 then
      (p.1, pos) :: sidxFrom serLen interval (i + 1) (pos + serLen p) rest
    else
      sidxFrom serLen interval (i + 1) (pos + serLen p) rest

/-- The file produced by `dump_to_file` for non-empty `data` (the caller
guards emptiness). -/
def dumpSeg {K V : Type} (serLen : K × V → Nat) (interval : Nat)
    (data : List (K × V)) : SegFile K V :=
  { records := data
    offsets := offsetsFrom serLen 0 data
    sparse_index := sidxFrom serLen interval 0 0 data
    index_position := iposFrom serLen 0 data }

/-- The Bloom filter populated with every key during the write loop
(`BloomFilter()` defaults: size 1000, 3 hashes). -/
def segBloom {K V : Type} (H : K → Nat → Nat) (data : List (K × V)) : KVStore.BloomFilter :=
  (data.map Prod.fst).foldl (KVStore.BloomFilter.add H) (KVStore.BloomFilter.init 1000 3)

/-- Models `bisect.bisect_left(keys, key)`: on a sorted list, the first
index whose element is `≥ key` (the library binary search and this linear
scan agree on sorted input, which is the only way the source calls it). -/
def bisect_left {K : Type} [LinearOrder K] : List K → K → Nat
  | [], _ => 0
  | x :: xs, key => if x < key then bisect_left xs key + 1 else 0

/-- The per-file part of `SparseIndexSST.get`: footer → sparse index →
`bisect_left` → seek → linear scan until `index_position`.

* All records precede `index_position` in a written file, so the
  `while f.tell() < index_position` scan is the tail of the record list.
* Seeking to a byte offset that is not a record boundary makes
  `pickle.load` fail (caught, segment skipped): `indexOf` then returns
  `offsets.length` and the scan is empty.
* An empty sparse index would raise an uncaught `IndexError` in Python; it
  is impossible for files written by `dump_to_file`, and modelled as a miss. -/
def segGet {K V : Type} [LinearOrder K] (f : SegFile K V) (key : K) : Option V :=
  let ks := f.sparse_index.map Prod.fst
  let pos := bisect_left ks key
  match f.sparse_index.get? (max 0 (pos - 1)) with
  | none => none
  | some e =>
    let j := f.offsets.indexOf e.2
    ((f.records.drop j).find? (fun p => p.1 = key)).map Prod.snd

/-! ## Segment manager (`class SparseIndexSST`) and store facade
(`class KeyValueStore`)

The directory path only names the filesystem location; files are carried
as an association list `id ↦ SegFile` (id `i` is filename `F{i}.sst`). -/

structure SSTManager (K V : Type) where
  sparse_interval : Nat
  file_counter : Nat
  bloom_filters : List BloomFilter
  dir : List (Nat × SegFile K V)
deriving Repr, DecidableEq

/-- `SparseIndexSST.__init__` over a fresh directory. -/
def SSTManager.init (sparse_interval : Nat := 3) : SSTManager K V :=
  ⟨sparse_interval, 0, [], []⟩

/-- `SparseIndexSST.dump_to_file`: empty data returns before touching any
state; otherwise write `F{file_counter}.sst`, append the Bloom filter,
bump the counter. -/
def mgrDump {K V : Type} (serLen : K × V → Nat) (H : K → Nat → Nat)
    (mgr : SSTManager K V) (data : List (K × V)) : SSTManager K V :=
  if data.isEmpty then mgr
  else
    { mgr with
      dir := dictInsert mgr.dir mgr.file_counter (dumpSeg serLen mgr.sparse_interval data)
      bloom_filters := mgr.bloom_filters ++ [segBloom H data]
      file_counter := mgr.file_counter + 1 }

/-- The `for i in range(self.file_counter)` loop of `SparseIndexSST.get`:
Bloom screen, then per-file reader; `FileNotFoundError` (and any decode
failure, folded into `segGet`) skips to the next id.  The source indexes
`bloom_filters[i]` unguarded; out-of-range (impossible in reachable
states, where the list has exactly `file_counter` entries) is modelled as
an empty filter. -/
def mgrGetLoop {K V : Type} [LinearOrder K] (H : K → Nat → Nat)
    (mgr : SSTManager K V) (key : K) : List Nat → Option V
  | [] => none
  | i :: rest =>
    if BloomFilter.contains H (mgr.bloom_filters.getD i (BloomFilter.init 1000 3)) key then
      match dictGet mgr.dir i with
      | none => mgrGetLoop H mgr key rest
      | some f =>
        match segGet f key with
        | some v => some v
        | none => mgrGetLoop H mgr key rest
    else
      mgrGetLoop H mgr key rest

/-- `SparseIndexSST.get`. -/
def mgrGet {K V : Type} [LinearOrder K] (H : K → Nat → Nat)
    (mgr : SSTManager K V) (key : K) : Option V :=
  mgrGetLoop H mgr key (List.range mgr.file_counter)

structure KeyValueStore (K V : Type) where
  avl_tree : AVLNode K V
  red_black_tree : List (K × V)
  sst_manager : SSTManager K V
  memory_threshold : Nat
  item_count : Nat
deriving Repr, DecidableEq

/-- `KeyValueStore.__init__` (fresh database directory). -/
def KeyValueStore.init (memory_threshold : Nat := 5) (sparse_interval : Nat := 3) :
    KeyValueStore K V :=
  ⟨.nil, [], SSTManager.init sparse_interval, memory_threshold, 0⟩

/-- `KeyValueStore.dump_to_file`: flush tier 2 (sorted) and clear it. -/
def storeDump {K V : Type} [LinearOrder K] (serLen : K × V → Nat) (H : K → Nat → Nat)
    (s : KeyValueStore K V) : KeyValueStore K V :=
  { s with
    sst_manager := mgrDump serLen H s.sst_manager (sortKV s.red_black_tree)
    red_black_tree := [] }

/-- `KeyValueStore.insert`: tier 1 while `item_count < memory_threshold`,
else tier 2 with a flush once `len(red_black_tree) >= memory_threshold`;
`item_count` is incremented last in both arms. -/
def storeInsert {K V : Type} [LinearOrder K] (serLen : K × V → Nat) (H : K → Nat → Nat)
    (s : KeyValueStore K V) (key : K) (value : V) : KeyValueStore K V :=
  if s.item_count < s.memory_threshold then
    { s with
      avl_tree := AVLTree.insertNode s.avl_tree key value
      item_count := s.item_count + 1 }
  else if s.memory_threshold ≤ (dictInsert s.red_black_tree key value).length then
    { storeDump serLen H
        { s with red_black_tree := dictInsert s.red_black_tree key value } with
      item_count := s.item_count + 1 }
  else
    { s with
      red_black_tree := dictInsert s.red_black_tree key value
      item_count := s.item_count + 1 }

/-- `KeyValueStore.get`: tier 1 (linear scan of the in-order traversal),
then tier 2, then the segment manager. -/
def storeGet {K V : Type} [LinearOrder K] (H : K → Nat → Nat)
    (s : KeyValueStore K V) (key : K) : Option V :=
  match (AVLTree.in_order s.avl_tree).find? (fun p => p.1 = key) with
  | some p => some p.2
  | none =>
    if dictContains s.red_black_tree key then dictGet s.red_black_tree key
    else mgrGet H s.sst_manager key

/-- The read-merge-delete loop of `compact_sst_files`: for each id in
order, read all records into the `all_data` dict (later reads overwrite),
delete the file; `FileNotFoundError` skips the id. -/
def compactLoop {K V : Type} [DecidableEq K] :
    List Nat → List (Nat × SegFile K V) → List (K × V) →
      List (K × V) × List (Nat × SegFile K V)
  | [], dir, acc => (acc, dir)
  | i :: rest, dir, acc =>
    match dictGet dir i with
    | none => compactLoop rest dir acc
    | some f =>
      compactLoop rest (dictRemove dir i)
        (f.records.foldl (fun d p => dictInsert d p.1 p.2) acc)

/-- What `compact_sst_files` does to the segment manager: merge all
segments (ids 0 upward, later reads overwriting), delete them, reset
`file_counter` and the Bloom vector, dump `sorted(all_data.items())`. -/
def compactMgr {K V : Type} [LinearOrder K] (serLen : K × V → Nat) (H : K → Nat → Nat)
    (mgr : SSTManager K V) : SSTManager K V :=
  mgrDump serLen H
    ({ mgr with
      file_counter := 0
      bloom_filters := []
      dir := (compactLoop (List.range mgr.file_counter) mgr.dir []).2 })
    (sortKV (compactLoop (List.range mgr.file_counter) mgr.dir []).1)

/-- `KeyValueStore.compact_sst_files`: read-merge-delete every segment,
reset the counter and Bloom vector, and dump `sorted(all_data.items())`
as the new `F0.sst`. -/
def storeCompact {K V : Type} [LinearOrder K] (serLen : K × V → Nat) (H : K → Nat → Nat)
    (s : KeyValueStore K V) : KeyValueStore K V :=
  { s with sst_manager := compactMgr serLen H s.sst_manager }

/-- The operations a client can drive the store with (reads do not mutate). -/
inductive Op (K V : Type) where
  | ins (key : K) (value : V) : Op K V
  | compact : Op K V

def applyOp {K V : Type} [LinearOrder K] (serLen : K × V → Nat) (H : K → Nat → Nat)
    (s : KeyValueStore K V) : Op K V → KeyValueStore K V
  | .ins k v => storeInsert serLen H s k v
  | .compact => storeCompact serLen H s

/-- Run a sequence of operations; `runOps serLen H (KeyValueStore.init T m) ops`
ranges over exactly the reachable store states. -/
def runOps {K V : Type} [LinearOrder K] (serLen : K × V → Nat) (H : K → Nat → Nat)
    (s : KeyValueStore K V) (ops : List (Op K V)) : KeyValueStore K V :=
  ops.foldl (applyOp serLen H) s

/-! ## Fallible variant of `dump_to_file`

`dump_to_file` wraps the whole file write in `try/except Exception`, logs
the error, and falls through to `self.file_counter += 1`.  To talk about
error propagation, the write is given a failure switch: `fail = true`
injects an I/O error raised inside the `with gzip.open(...)` block.  The
result is an `Except` so that "the error propagates" would be `.error`;
the source catches everything, so every branch is `.ok`. -/
def mgrDumpE {K V : Type} (serLen : K × V → Nat) (H : K → Nat → Nat) (fail : Bool)
    (mgr : SSTManager K V) (data : List (K × V)) : Except String (SSTManager K V) :=
  if data.isEmpty then .ok mgr
  else if fail then
    -- exception caught and logged: no file recorded, no Bloom filter
    -- appended, but the counter is still incremented
    .ok { mgr with file_counter := mgr.file_counter + 1 }
  else
    .ok { mgr with
      dir := dictInsert mgr.dir mgr.file_counter (dumpSeg serLen mgr.sparse_interval data)
      bloom_filters := mgr.bloom_filters ++ [segBloom H data]
      file_counter := mgr.file_counter + 1 }

/-! ## Reachable-state invariant of the segment manager -/

/-- All records held by the manager's segments, oldest segment first
(missing ids contribute nothing, matching the reader's skip policy). -/
def segRecords {K V : Type} (mgr : SSTManager K V) : List (K × V) :=
  ((List.range mgr.file_counter).map
    (fun i => match dictGet mgr.dir i with | some f => f.records | none => [])).flatten

/-- What is true of the segment manager in every reachable state: the
directory holds exactly files `F0 … F(file_counter-1)` in creation order,
one Bloom filter per file, and every file was produced by the writer from
a non-empty strictly key-sorted batch whose keys its filter holds. -/
def MgrInv {K V : Type} [LinearOrder K] (serLen : K × V → Nat) (H : K → Nat → Nat)
    (mgr : SSTManager K V) : Prop :=
  mgr.dir.map Prod.fst = List.range mgr.file_counter ∧
  mgr.bloom_filters.length = mgr.file_counter ∧
  ∀ i f, dictGet mgr.dir i = some f →
    ∃ data, f = dumpSeg serLen mgr.sparse_interval data ∧ data ≠ [] ∧
      List.Sorted (· < ·) (data.map Prod.fst) ∧
      mgr.bloom_filters.get? i = some (segBloom H data)

/-- One key-value pair per logical location: tier 1's traversal, tier 2,
then all segment records.  In a distinct-key run this is a permutation of
the insert history. -/
def contents {K V : Type} (s : KeyValueStore K V) : List (K × V) :=
  AVLTree.in_order s.avl_tree ++ s.red_black_tree ++ segRecords s.sst_manager

/-- Reachable-state invariant of the whole store. -/
def StoreInv {K V : Type} [LinearOrder K] (serLen : K × V → Nat) (H : K → Nat → Nat)
    (s : KeyValueStore K V) : Prop :=
  AVLTree.Avl s.avl_tree ∧ AVLTree.Ordered s.avl_tree ∧
  (s.red_black_tree.map Prod.fst).Nodup ∧
  MgrInv serLen H s.sst_manager

/-! ## Theorems -/

namespace BloomFilter

theorem setBits_length (arr hvs : List Nat) : (setBits arr hvs).length = arr.length := by
  induction hvs generalizing arr with
  | nil => rfl
  | cons hv rest ih => simpa [setBits] using ih (arr.set hv 1)

theorem set_one_getD_ne_zero (arr : List Nat) (hv j : Nat) (h : arr.getD j 0 ≠ 0) :
    (arr.set hv 1).getD j 0 ≠ 0 := by
  rw [List.getD_eq_getElem?_getD, List.getElem?_set]
  rw [List.getD_eq_getElem?_getD] at h
  by_cases hj : hv = j
  · subst hj
    by_cases hlt : hv < arr.length
    · simp [hlt]
    · rw [List.getElem?_eq_none (le_of_not_lt hlt)] at h
      simp at h
  · simpa [hj] using h

theorem setBits_preserves (arr hvs : List Nat) (j : Nat) (h : arr.getD j 0 ≠ 0) :
    (setBits arr hvs).getD j 0 ≠ 0 := by
  induction hvs generalizing arr with
  | nil => exact h
  | cons hv rest ih =>
    show (setBits (arr.set hv 1) rest).getD j 0 ≠ 0
    exact ih (arr.set hv 1) (set_one_getD_ne_zero arr hv j h)

theorem setBits_mem (arr hvs : List Nat) (j : Nat) (hmem : j ∈ hvs)
    (hlt : j < arr.length) : (setBits arr hvs).getD j 0 ≠ 0 := by
  induction hvs generalizing arr with
  | nil => cases hmem
  | cons hv rest ih =>
    rcases List.mem_cons.mp hmem with heq | hrest
    · subst heq
      show (setBits (arr.set j 1) rest).getD j 0 ≠ 0
      apply setBits_preserves
      rw [List.getD_eq_getElem?_getD, List.getElem?_set]
      simp [hlt]
    · show (setBits (arr.set hv 1) rest).getD j 0 ≠ 0
      exact ih (arr.set hv 1) hrest (by simpa using hlt)

theorem add_bit_array {K : Type} (H : K → Nat → Nat) (bf : BloomFilter) (k : K) :
    (add H bf k).bit_array = setBits bf.bit_array (hashes H bf k) := rfl

theorem add_length {K : Type} (H : K → Nat → Nat) (bf : BloomFilter) (k : K) :
    (add H bf k).bit_array.length = bf.bit_array.length := by
  rw [add_bit_array]; exact setBits_length _ _

theorem hashes_add {K : Type} (H : K → Nat → Nat) (bf : BloomFilter) (k k' : K) :
    hashes H (add H bf k') k = hashes H bf k := rfl

theorem contains_add_self {K : Type} (H : K → Nat → Nat) (bf : BloomFilter) (k : K)
    (hlen : bf.bit_array.length = bf.size) (hpos : 0 < bf.size) :
    contains H (add H bf k) k = true := by
  rw [contains, List.all_eq_true]
  intro hv hmem
  rw [hashes_add] at hmem
  rw [add_bit_array]
  simp only [bne_iff_ne, ne_eq]
  apply setBits_mem
  · exact hmem
  · rw [hlen]
    rcases List.mem_map.mp hmem with ⟨i, _, rfl⟩
    exact Nat.mod_lt _ hpos

theorem contains_mono {K : Type} (H : K → Nat → Nat) (bf : BloomFilter) (k k' : K)
    (h : contains H bf k = true) : contains H (add H bf k') k = true := by
  rw [contains, List.all_eq_true] at h ⊢
  intro hv hmem
  rw [hashes_add] at hmem
  rw [add_bit_array]
  simp only [bne_iff_ne, ne_eq]
  exact setBits_preserves _ _ _ (by simpa using h hv hmem)

theorem contains_foldl_mono {K : Type} (H : K → Nat → Nat) (bf : BloomFilter) (k : K)
    (ks : List K) (h : contains H bf k = true) :
    contains H (ks.foldl (add H) bf) k = true := by
  induction ks generalizing bf with
  | nil => exact h
  | cons k' rest ih => exact ih (add H bf k') (contains_mono H bf k k' h)

theorem contains_foldl_add {K : Type} (H : K → Nat → Nat) (bf : BloomFilter)
    (hlen : bf.bit_array.length = bf.size) (hpos : 0 < bf.size)
    (ks : List K) (k : K) (hk : k ∈ ks) :
    contains H (ks.foldl (add H) bf) k = true := by
  induction ks generalizing bf with
  | nil => cases hk
  | cons k' rest ih =>
    rcases List.mem_cons.mp hk with rfl | hrest
    · exact contains_foldl_mono H _ k rest (contains_add_self H bf k hlen hpos)
    · exact ih (add H bf k') (by rw [add_length, hlen]; rfl) hpos hrest

theorem init_length (size hash_count : Nat) :
    (init size hash_count).bit_array.length = (init size hash_count).size := by
  simp [init]

end BloomFilter

namespace AVLTree

variable {K V : Type}

theorem in_order_rotate_left (t : AVLNode K V) :
    in_order (rotate_left t) = in_order t := by
  cases t with
  | nil => rfl
  | node zk zv h zl zr =>
    cases zr with
    | nil => rfl
    | node yk yv hy t2 yr => simp [rotate_left, in_order]

theorem in_order_rotate_right (t : AVLNode K V) :
    in_order (rotate_right t) = in_order t := by
  cases t with
  | nil => rfl
  | node zk zv h zl zr =>
    cases zl with
    | nil => rfl
    | node yk yv hy yl t3 => simp [rotate_right, in_order]

theorem in_order_setLeft_rot (n : AVLNode K V) :
    in_order (setLeft n (rotate_left (leftChild n))) = in_order n := by
  cases n with
  | nil => rfl
  | node k v h l r => simp [setLeft, leftChild, in_order, in_order_rotate_left]

theorem in_order_setRight_rot (n : AVLNode K V) :
    in_order (setRight n (rotate_right (rightChild n))) = in_order n := by
  cases n with
  | nil => rfl
  | node k v h l r => simp [setRight, rightChild, in_order, in_order_rotate_right]

theorem in_order_rebalance [LinearOrder K] (key : K) (n : AVLNode K V) :
    in_order (rebalance key n) = in_order n := by
  unfold rebalance
  split
  · exact in_order_rotate_right n
  split
  · exact in_order_rotate_left n
  split
  · rw [in_order_rotate_right, in_order_setLeft_rot]
  split
  · rw [in_order_rotate_left, in_order_setRight_rot]
  rfl

theorem insertPair_append_lt [LinearOrder K] (k : K) (v : V) (k0 : K) (v0 : V)
    (xs ys : List (K × V)) (h : k < k0) :
    insertPair k v (xs ++ (k0, v0) :: ys) = insertPair k v xs ++ (k0, v0) :: ys := by
  induction xs with
  | nil => simp [insertPair, h]
  | cons p rest ih =>
    obtain ⟨k', v'⟩ := p
    by_cases h1 : k < k'
    · simp [insertPair, h1]
    · by_cases h2 : k' < k
      · simp [insertPair, h1, h2, ih]
      · simp [insertPair, h1, h2]

theorem insertPair_append_gt [LinearOrder K] (k : K) (v : V) (k0 : K) (v0 : V)
    (xs ys : List (K × V)) (hxs : ∀ p ∈ xs, p.1 < k) (h : k0 < k) :
    insertPair k v (xs ++ (k0, v0) :: ys) = xs ++ (k0, v0) :: insertPair k v ys := by
  induction xs with
  | nil => simp [insertPair, h, asymm h]
  | cons p rest ih =>
    obtain ⟨k', v'⟩ := p
    have hk' : k' < k := hxs (k', v') (List.mem_cons_self _ _)
    simp [insertPair, asymm hk', hk', ih (fun q hq => hxs q (List.mem_cons_of_mem _ hq))]

theorem insertPair_append_eq [LinearOrder K] (k : K) (v : V) (v0 : V)
    (xs ys : List (K × V)) (hxs : ∀ p ∈ xs, p.1 < k) :
    insertPair k v (xs ++ (k, v0) :: ys) = xs ++ (k, v) :: ys := by
  induction xs with
  | nil => simp [insertPair]
  | cons p rest ih =>
    obtain ⟨k', v'⟩ := p
    have hk' : k' < k := hxs (k', v') (List.mem_cons_self _ _)
    simp [insertPair, asymm hk', hk', ih (fun q hq => hxs q (List.mem_cons_of_mem _ hq))]

/-- Core characterization: on an ordered tree, `_insert` acts on the
in-order traversal as sorted insert-or-update. -/
theorem in_order_insertNode [LinearOrder K] (t : AVLNode K V) (k : K) (v : V)
    (hord : Ordered t) :
    in_order (insertNode t k v) = insertPair k v (in_order t) := by
  induction t with
  | nil => rfl
  | node k0 v0 h0 l r ihl ihr =>
    have hsort := hord
    unfold Ordered keys at hsort
    rw [in_order] at hsort
    rw [List.map_append, List.map_cons, List.Sorted, List.pairwise_append] at hsort
    obtain ⟨hsl, hsr', hcross⟩ := hsort
    have hsr : List.Sorted (· < ·) ((in_order r).map Prod.fst) :=
      (List.sorted_cons.mp hsr').2
    have hk0r : ∀ p ∈ in_order r, k0 < p.1 := by
      intro p hp
      exact (List.sorted_cons.mp hsr').1 _ (List.mem_map_of_mem Prod.fst hp)
    have hlk0 : ∀ p ∈ in_order l, p.1 < k0 := by
      intro p hp
      exact hcross _ (List.mem_map_of_mem Prod.fst hp) k0 (List.mem_cons_self _ _)
    by_cases h1 : k < k0
    · rw [insertNode]
      simp only [h1, if_pos]
      rw [in_order_rebalance, in_order, ihl hsl, in_order,
        insertPair_append_lt k v k0 v0 _ _ h1]
    · by_cases h2 : k0 < k
      · rw [insertNode]
        simp only [h1, h2, if_neg, if_pos, not_false_iff]
        rw [in_order_rebalance, in_order, ihr hsr, in_order,
          insertPair_append_gt k v k0 v0 _ _ (fun p hp => lt_trans (hlk0 p hp) h2) h2]
      · have hk : k = k0 := le_antisymm (not_lt.mp h2) (not_lt.mp h1)
        subst hk
        rw [insertNode]
        simp only [h1, h2, if_neg, not_false_iff]
        rw [in_order, in_order, insertPair_append_eq k v v0 _ _ hlk0]

theorem map_fst_insertPair [LinearOrder K] (k : K) (v : V) (xs : List (K × V)) :
    (insertPair k v xs).map Prod.fst = insertKey k (xs.map Prod.fst) := by
  induction xs with
  | nil => rfl
  | cons p rest ih =>
    obtain ⟨k', v'⟩ := p
    by_cases h1 : k < k'
    · simp [insertPair, insertKey, h1]
    · by_cases h2 : k' < k
      · simp [insertPair, insertKey, h1, h2, ih]
      · simp [insertPair, insertKey, h1, h2]

theorem mem_insertKey [LinearOrder K] (k a : K) (l : List K) (h : a ∈ insertKey k l) :
    a = k ∨ a ∈ l := by
  induction l with
  | nil => simpa [insertKey] using h
  | cons k' rest ih =>
    by_cases h1 : k < k'
    · simp only [insertKey, if_pos h1, List.mem_cons] at h
      rcases h with h | h | h
      · exact Or.inl h
      · exact Or.inr (by simp [h])
      · exact Or.inr (List.mem_cons_of_mem _ h)
    · by_cases h2 : k' < k
      · simp only [insertKey, if_neg h1, if_pos h2, List.mem_cons] at h
        rcases h with h | h
        · exact Or.inr (by simp [h])
        · rcases ih h with h | h
          · exact Or.inl h
          · exact Or.inr (List.mem_cons_of_mem _ h)
      · simp only [insertKey, if_neg h1, if_neg h2] at h
        exact Or.inr h

theorem sorted_insertKey [LinearOrder K] (k : K) (l : List K)
    (hs : List.Sorted (· < ·) l) : List.Sorted (· < ·) (insertKey k l) := by
  induction l with
  | nil => simp [insertKey]
  | cons k' rest ih =>
    obtain ⟨hk', hrest⟩ := List.sorted_cons.mp hs
    by_cases h1 : k < k'
    · rw [insertKey, if_pos h1]
      exact List.sorted_cons.mpr ⟨by
        intro b hb
        rcases List.mem_cons.mp hb with rfl | hb
        · exact h1
        · exact lt_trans h1 (hk' b hb), hs⟩
    · by_cases h2 : k' < k
      · rw [insertKey, if_neg h1, if_pos h2]
        refine List.sorted_cons.mpr ⟨?_, ih hrest⟩
        intro b hb
        rcases mem_insertKey k b rest hb with rfl | hb
        · exact h2
        · exact hk' b hb
      · rw [insertKey, if_neg h1, if_neg h2]
        exact hs

/-- Inserting preserves the BST ordering invariant. -/
theorem ordered_insertNode [LinearOrder K] (t : AVLNode K V) (k : K) (v : V)
    (hord : Ordered t) : Ordered (insertNode t k v) := by
  unfold Ordered keys
  rw [in_order_insertNode t k v hord, map_fst_insertPair]
  exact sorted_insertKey k _ hord

/-- First-match scan of `insertPair` output at the inserted key. -/
theorem find_insertPair_self [LinearOrder K] (k : K) (v : V) (xs : List (K × V)) :
    (insertPair k v xs).find? (fun p => p.1 = k) = some (k, v) := by
  induction xs with
  | nil => simp [insertPair]
  | cons p rest ih =>
    obtain ⟨k', v'⟩ := p
    by_cases h1 : k < k'
    · simp [insertPair, h1, List.find?]
    · by_cases h2 : k' < k
      · have hne : ¬ (k' = k) := ne_of_lt h2
        simp [insertPair, h1, h2, List.find?, hne, ih]
      · have hk : k' = k := le_antisymm (not_lt.mp h1) (not_lt.mp h2)
        subst hk
        simp [insertPair, h1, h2, List.find?]

/-- `insertPair` at key `k` does not disturb the first match at other keys. -/
theorem find_insertPair_other [LinearOrder K] (k key : K) (v : V)
    (xs : List (K × V)) (hne : k ≠ key) :
    (insertPair k v xs).find? (fun p => p.1 = key) = xs.find? (fun p => p.1 = key) := by
  induction xs with
  | nil => simp [insertPair, List.find?, hne]
  | cons p rest ih =>
    obtain ⟨k', v'⟩ := p
    by_cases h1 : k < k'
    · simp [insertPair, h1, List.find?, hne]
    · by_cases h2 : k' < k
      · by_cases h3 : k' = key
        · subst h3
          simp [insertPair, h1, h2, List.find?]
        · simp [insertPair, h1, h2, List.find?, h3, ih]
      · have hk : k' = k := le_antisymm (not_lt.mp h1) (not_lt.mp h2)
        subst hk
        simp [insertPair, h1, h2, List.find?, hne]

@[simp] theorem height_nil : height (.nil : AVLNode K V) = 0 := rfl

@[simp] theorem height_node (k : K) (v : V) (h : Nat) (l r : AVLNode K V) :
    height (.node k v h l r) = h := rfl

@[simp] theorem balance_factor_node (k : K) (v : V) (h : Nat) (l r : AVLNode K V) :
    balance_factor (.node k v h l r) = (height l : Int) - height r := rfl

@[simp] theorem leftChild_node (k : K) (v : V) (h : Nat) (l r : AVLNode K V) :
    leftChild (.node k v h l r) = l := rfl

@[simp] theorem rightChild_node (k : K) (v : V) (h : Nat) (l r : AVLNode K V) :
    rightChild (.node k v h l r) = r := rfl

theorem avl_heightsOk (t : AVLNode K V) (h : Avl t) : HeightsOk t := by
  induction t with
  | nil => trivial
  | node k v hh l r ihl ihr =>
    obtain ⟨h1, h2, h3, _⟩ := h
    exact ⟨h3, ihl h1, ihr h2⟩

theorem avl_balanced (t : AVLNode K V) (h : Avl t) : Balanced t := by
  induction t with
  | nil => trivial
  | node k v hh l r ihl ihr =>
    obtain ⟨h1, h2, _, h4⟩ := h
    exact ⟨h4, ihl h1, ihr h2⟩

theorem rebalance_eq_self [LinearOrder K] (key : K) (n : AVLNode K V)
    (h : (balance_factor n).natAbs ≤ 1) : rebalance key n = n := by
  have h1 : ¬ balance_factor n > 1 := by omega
  have h2 : ¬ balance_factor n < -1 := by omega
  unfold rebalance
  rw [if_neg (fun hc => h1 hc.1), if_neg (fun hc => h2 hc.1),
    if_neg (fun hc => h1 hc.1), if_neg (fun hc => h2 hc.1)]

theorem rebalance_eq_ll [LinearOrder K] (key : K) (n : AVLNode K V)
    (h1 : balance_factor n > 1) (h2 : ltRootKey key (leftChild n) = true) :
    rebalance key n = rotate_right n := by
  unfold rebalance
  rw [if_pos ⟨h1, h2⟩]

theorem rebalance_eq_lr [LinearOrder K] (key : K) (n : AVLNode K V)
    (h1 : balance_factor n > 1) (h2 : ltRootKey key (leftChild n) = false)
    (h3 : gtRootKey key (leftChild n) = true) :
    rebalance key n = rotate_right (setLeft n (rotate_left (leftChild n))) := by
  have hn2 : ¬ balance_factor n < -1 := by omega
  unfold rebalance
  rw [if_neg (fun hc => by rw [h2] at hc; exact Bool.false_ne_true hc.2),
    if_neg (fun hc => hn2 hc.1), if_pos ⟨h1, h3⟩]

theorem rebalance_eq_rr [LinearOrder K] (key : K) (n : AVLNode K V)
    (h1 : balance_factor n < -1) (h2 : gtRootKey key (rightChild n) = true) :
    rebalance key n = rotate_left n := by
  have hn1 : ¬ balance_factor n > 1 := by omega
  unfold rebalance
  rw [if_neg (fun hc => hn1 hc.1), if_pos ⟨h1, h2⟩]

theorem rebalance_eq_rl [LinearOrder K] (key : K) (n : AVLNode K V)
    (h1 : balance_factor n < -1) (h2 : gtRootKey key (rightChild n) = false)
    (h3 : ltRootKey key (rightChild n) = true) :
    rebalance key n = rotate_left (setRight n (rotate_right (rightChild n))) := by
  have hn1 : ¬ balance_factor n > 1 := by omega
  unfold rebalance
  rw [if_neg (fun hc => hn1 hc.1), if_neg (fun hc => by rw [h2] at hc; exact Bool.false_ne_true hc.2),
    if_neg (fun hc => hn1 hc.1), if_pos ⟨h1, h3⟩]

/-- Main AVL preservation theorem for `_insert`: the invariant is kept, the
height grows by at most one, and a height-growing insert leaves a tree whose
lean direction agrees with the side of the inserted key (needed to justify
the source's key-driven rotation dispatch one level up). -/
theorem insertNode_avl [LinearOrder K] (t : AVLNode K V) (k : K) (v : V)
    (havl : Avl t) :
    Avl (insertNode t k v) ∧
      (height (insertNode t k v) = height t ∨
        (height (insertNode t k v) = height t + 1 ∧
          (2 ≤ height (insertNode t k v) → GrowthOk k (insertNode t k v)))) := by
  induction t with
  | nil =>
    refine ⟨⟨trivial, trivial, by simp, by simp⟩, Or.inr ⟨rfl, ?_⟩⟩
    intro h2
    simp [insertNode, height] at h2
  | node k0 v0 h0 l r ihl ihr =>
    obtain ⟨havll, havlr, hh0, hbal⟩ := havl
    by_cases hk1 : k < k0
    · -- insertion goes into the left subtree
      have hunfold : insertNode (AVLNode.node k0 v0 h0 l r) k v =
          rebalance k (AVLNode.node k0 v0
            (1 + max (height (insertNode l k v)) (height r)) (insertNode l k v) r) := by
        simp only [insertNode]
        rw [if_pos hk1]
      obtain ⟨havl', hgrow⟩ := ihl havll
      rw [hunfold]
      generalize hLdef : insertNode l k v = L at havl' hgrow ⊢
      rcases hgrow with hsame | ⟨hgrew, hgok⟩
      · -- the left subtree kept its height: no rotation
        have hbf : (balance_factor (AVLNode.node k0 v0
            (1 + max (height L) (height r)) L r)).natAbs ≤ 1 := by
          simp only [balance_factor_node]; omega
        rw [rebalance_eq_self _ _ hbf]
        exact ⟨⟨havl', havlr, rfl, by omega⟩, Or.inl (by (try simp only [height_node, height_nil] at *); omega)⟩
      · -- the left subtree grew by one
        by_cases hble : height L ≤ height r + 1
        · -- still balanced: no rotation
          have hbf : (balance_factor (AVLNode.node k0 v0
              (1 + max (height L) (height r)) L r)).natAbs ≤ 1 := by
            simp only [balance_factor_node]; omega
          rw [rebalance_eq_self _ _ hbf]
          refine ⟨⟨havl', havlr, rfl, by omega⟩, ?_⟩
          by_cases hcase : height r = height l + 1
          · exact Or.inl (by (try simp only [height_node, height_nil] at *); omega)
          · refine Or.inr ⟨by (try simp only [height_node, height_nil] at *); omega, fun _ => ?_⟩
            exact ⟨by (try simp only [height_node, height_nil] at *); omega, fun _ => hk1, fun hc => absurd hc (by omega)⟩
        · -- left-heavy overflow: balance factor 2, rotation needed
          have h2r : height L = height r + 2 := by omega
          have hgok' := hgok (by omega)
          cases L with
          | nil => exact hgok'.elim
          | node lk lv lh ll lr =>
            obtain ⟨havlll, havllr, hlh, hlbal⟩ := havl'
            obtain ⟨hne, hgl, hgr⟩ := hgok'
            have hlhval : lh = height r + 2 := h2r
            by_cases hllr : height lr < height ll
            · -- left-left: single right rotation
              have hklt : k < lk := hgl hllr
              rw [rebalance_eq_ll k _ (by (try simp only [balance_factor_node, height_node]); omega)
                (by simp only [leftChild_node, ltRootKey, hklt]; rfl)]
              simp only [rotate_right]
              refine ⟨⟨havlll, ⟨havllr, havlr, rfl, by (try simp only [height_node, height_nil] at *); omega⟩,
                rfl, by (try simp only [height_node, height_nil] at *); omega⟩,
                Or.inl (by (try simp only [height_node, height_nil] at *); omega)⟩
            · by_cases hrlr : height ll < height lr
              · -- left-right: double rotation
                have hkgt : lk < k := hgr hrlr
                have hnlt : ¬ k < lk := asymm hkgt
                rw [rebalance_eq_lr k _ (by (try simp only [balance_factor_node, height_node]); omega)
                  (by simp only [leftChild_node, ltRootKey]; exact decide_eq_false hnlt)
                  (by simp only [leftChild_node, gtRootKey, hkgt]; rfl)]
                cases lr with
                | nil => simp only [height_nil] at hrlr; omega
                | node mk mv mh A B =>
                  obtain ⟨havlA, havlB, hmh, hmbal⟩ := havllr
                  simp only [leftChild_node, setLeft, rotate_left, rotate_right]
                  refine ⟨⟨⟨havlll, havlA, rfl, by (try simp only [height_node, height_nil] at *); omega⟩,
                    ⟨havlB, havlr, rfl, by (try simp only [height_node, height_nil] at *); omega⟩,
                    rfl, by (try simp only [height_node, height_nil] at *); omega⟩,
                    Or.inl (by (try simp only [height_node, height_nil] at *); omega)⟩
              · exact absurd (le_antisymm (not_lt.mp hllr) (not_lt.mp hrlr)) hne
    · by_cases hk2 : k0 < k
      · -- insertion goes into the right subtree (mirror case)
        have hunfold : insertNode (AVLNode.node k0 v0 h0 l r) k v =
            rebalance k (AVLNode.node k0 v0
              (1 + max (height l) (height (insertNode r k v))) l (insertNode r k v)) := by
          simp only [insertNode]
          rw [if_neg hk1, if_pos hk2]
        obtain ⟨havl', hgrow⟩ := ihr havlr
        rw [hunfold]
        generalize hRdef : insertNode r k v = R at havl' hgrow ⊢
        rcases hgrow with hsame | ⟨hgrew, hgok⟩
        · have hbf : (balance_factor (AVLNode.node k0 v0
              (1 + max (height l) (height R)) l R)).natAbs ≤ 1 := by
            simp only [balance_factor_node]; omega
          rw [rebalance_eq_self _ _ hbf]
          exact ⟨⟨havll, havl', rfl, by omega⟩, Or.inl (by (try simp only [height_node, height_nil] at *); omega)⟩
        · by_cases hble : height R ≤ height l + 1
          · have hbf : (balance_factor (AVLNode.node k0 v0
                (1 + max (height l) (height R)) l R)).natAbs ≤ 1 := by
              simp only [balance_factor_node]; omega
            rw [rebalance_eq_self _ _ hbf]
            refine ⟨⟨havll, havl', rfl, by omega⟩, ?_⟩
            by_cases hcase : height l = height r + 1
            · exact Or.inl (by (try simp only [height_node, height_nil] at *); omega)
            · refine Or.inr ⟨by (try simp only [height_node, height_nil] at *); omega, fun _ => ?_⟩
              exact ⟨by (try simp only [height_node, height_nil] at *); omega, fun hc => absurd hc (by omega), fun _ => hk2⟩
          · have h2l : height R = height l + 2 := by omega
            have hgok' := hgok (by omega)
            cases R with
            | nil => exact hgok'.elim
            | node rk rv rh Rl Rr =>
              obtain ⟨havlRl, havlRr, hrh, hrbal⟩ := havl'
              obtain ⟨hne, hgl, hgr⟩ := hgok'
              have hrhval : rh = height l + 2 := h2l
              by_cases hrr : height Rl < height Rr
              · -- right-right: single left rotation
                have hkgt : rk < k := hgr hrr
                rw [rebalance_eq_rr k _ (by (try simp only [balance_factor_node, height_node]); omega)
                  (by simp only [rightChild_node, gtRootKey, hkgt]; rfl)]
                simp only [rotate_left]
                refine ⟨⟨⟨havll, havlRl, rfl, by (try simp only [height_node, height_nil] at *); omega⟩, havlRr,
                  rfl, by (try simp only [height_node, height_nil] at *); omega⟩,
                  Or.inl (by (try simp only [height_node, height_nil] at *); omega)⟩
              · by_cases hrl : height Rr < height Rl
                · -- right-left: double rotation
                  have hklt : k < rk := hgl hrl
                  have hngt : ¬ rk < k := asymm hklt
                  rw [rebalance_eq_rl k _ (by (try simp only [balance_factor_node, height_node]); omega)
                    (by simp only [rightChild_node, gtRootKey]; exact decide_eq_false hngt)
                    (by simp only [rightChild_node, ltRootKey, hklt]; rfl)]
                  cases Rl with
                  | nil => simp only [height_nil] at hrl; omega
                  | node mk mv mh A B =>
                    obtain ⟨havlA, havlB, hmh, hmbal⟩ := havlRl
                    simp only [rightChild_node, setRight, rotate_right, rotate_left]
                    refine ⟨⟨⟨havll, havlA, rfl, by (try simp only [height_node, height_nil] at *); omega⟩,
                      ⟨havlB, havlRr, rfl, by (try simp only [height_node, height_nil] at *); omega⟩,
                      rfl, by (try simp only [height_node, height_nil] at *); omega⟩,
                      Or.inl (by (try simp only [height_node, height_nil] at *); omega)⟩
                · exact absurd (le_antisymm (not_lt.mp hrl) (not_lt.mp hrr)) hne
      · -- duplicate key: value update in place, heights untouched
        have hunfold : insertNode (AVLNode.node k0 v0 h0 l r) k v =
            AVLNode.node k0 v h0 l r := by
          simp only [insertNode]
          rw [if_neg hk1, if_neg hk2]
        rw [hunfold]
        exact ⟨⟨havll, havlr, hh0, hbal⟩, Or.inl rfl⟩

end AVLTree

section SegFileLemmas

variable {K V : Type}

theorem offsetsFrom_mem_le (serLen : K × V → Nat) (pos : Nat) (data : List (K × V))
    (o : Nat) (h : o ∈ offsetsFrom serLen pos data) : pos ≤ o := by
  induction data generalizing pos with
  | nil => cases h
  | cons p rest ih =>
    rcases List.mem_cons.mp h with rfl | h
    · exact le_refl _
    · exact le_trans (Nat.le_add_right _ _) (ih (pos + serLen p) h)

theorem offsetsFrom_sorted (serLen : K × V → Nat) (hser : ∀ p, 0 < serLen p)
    (pos : Nat) (data : List (K × V)) :
    List.Sorted (· < ·) (offsetsFrom serLen pos data) := by
  induction data generalizing pos with
  | nil => exact List.sorted_nil
  | cons p rest ih =>
    refine List.sorted_cons.mpr ⟨?_, ih (pos + serLen p)⟩
    intro o ho
    calc pos < pos + serLen p := by have := hser p; omega
    _ ≤ o := offsetsFrom_mem_le serLen _ rest o ho

theorem offsetsFrom_length (serLen : K × V → Nat) (pos : Nat) (data : List (K × V)) :
    (offsetsFrom serLen pos data).length = data.length := by
  induction data generalizing pos with
  | nil => rfl
  | cons p rest ih => simpa [offsetsFrom] using ih (pos + serLen p)

theorem indexOf_of_get? {α : Type} [DecidableEq α] (l : List α) (j : Nat) (a : α)
    (hnd : l.Nodup) (h : l.get? j = some a) : l.indexOf a = j := by
  induction l generalizing j with
  | nil => cases h
  | cons b rest ih =>
    cases j with
    | zero =>
      rw [List.get?] at h
      cases h
      exact List.indexOf_cons_self _ _
    | succ j' =>
      rw [List.get?] at h
      have hmem : a ∈ rest := List.get?_mem h
      have hne : b ≠ a := by
        rintro rfl
        exact (List.nodup_cons.mp hnd).1 hmem
      rw [List.indexOf_cons_ne _ hne, ih j' (List.nodup_cons.mp hnd).2 h]

theorem bisect_left_le_length [LinearOrder K] (l : List K) (key : K) :
    bisect_left l key ≤ l.length := by
  induction l with
  | nil => exact le_refl _
  | cons x xs ih =>
    rw [bisect_left]
    split
    · simpa using ih
    · simp

theorem bisect_left_pred [LinearOrder K] (l : List K) (key : K)
    (h : 0 < bisect_left l key) :
    ∃ a, l.get? (bisect_left l key - 1) = some a ∧ a < key := by
  induction l with
  | nil => simp [bisect_left] at h
  | cons x xs ih =>
    rw [bisect_left] at h ⊢
    by_cases hx : x < key
    · rw [if_pos hx] at h ⊢
      by_cases hz : bisect_left xs key = 0
      · exact ⟨x, by simp [hz], hx⟩
      · obtain ⟨a, ha, hak⟩ := ih (Nat.pos_of_ne_zero hz)
        refine ⟨a, ?_, hak⟩
        have : bisect_left xs key + 1 - 1 = (bisect_left xs key - 1) + 1 := by omega
        rw [this, List.get?]
        exact ha
    · rw [if_neg hx] at h
      exact absurd h (lt_irrefl 0)

theorem sidx_entry (serLen : K × V → Nat) (m i pos : Nat) (data : List (K × V))
    (e : K × Nat) (he : e ∈ sidxFrom serLen m i pos data) :
    ∃ j p, data.get? j = some p ∧ p.1 = e.1 ∧
      (offsetsFrom serLen pos data).get? j = some e.2 := by
  induction data generalizing i pos with
  | nil => cases he
  | cons p rest ih =>
    rw [sidxFrom] at he
    by_cases hc : i % m = 0
    · rw [if_pos hc] at he
      rcases List.mem_cons.mp he with rfl | he
      · exact ⟨0, p, rfl, rfl, rfl⟩
      · obtain ⟨j, q, hq, hq1, hoff⟩ := ih (i + 1) (pos + serLen p) he
        exact ⟨j + 1, q, hq, hq1, hoff⟩
    · rw [if_neg hc] at he
      obtain ⟨j, q, hq, hq1, hoff⟩ := ih (i + 1) (pos + serLen p) he
      exact ⟨j + 1, q, hq, hq1, hoff⟩

theorem sidx_keys_sublist (serLen : K × V → Nat) (m i pos : Nat)
    (data : List (K × V)) :
    ((sidxFrom serLen m i pos data).map Prod.fst).Sublist (data.map Prod.fst) := by
  induction data generalizing i pos with
  | nil => simp [sidxFrom]
  | cons p rest ih =>
    rw [sidxFrom]
    by_cases hc : i % m = 0
    · rw [if_pos hc]
      simpa using List.Sublist.cons₂ p.1 (ih (i + 1) (pos + serLen p))
    · rw [if_neg hc]
      simpa using List.Sublist.cons p.1 (ih (i + 1) (pos + serLen p))

theorem find_nodup_keys [DecidableEq K] (l : List (K × V)) (k : K) (v : V)
    (hnd : (l.map Prod.fst).Nodup) (hmem : (k, v) ∈ l) :
    l.find? (fun p => p.1 = k) = some (k, v) := by
  induction l with
  | nil => cases hmem
  | cons q rest ih =>
    obtain ⟨k', v'⟩ := q
    rw [List.map_cons, List.nodup_cons] at hnd
    by_cases hk : k' = k
    · subst hk
      rcases List.mem_cons.mp hmem with heq | hmem'
      · rw [← heq]
        simp [List.find?]
      · exact absurd (List.mem_map_of_mem Prod.fst hmem') (by simpa using hnd.1)
    · have : (k, v) ∈ rest := by
        rcases List.mem_cons.mp hmem with heq | hmem'
        · cases heq; exact absurd rfl hk
        · exact hmem'
      simp [List.find?, hk, ih hnd.2 this]

theorem sorted_get?_lt [LinearOrder K] (l : List K) (hs : List.Sorted (· < ·) l)
    (i j : Nat) (a b : K) (ha : l.get? i = some a) (hb : l.get? j = some b)
    (hab : a < b) : i < j := by
  by_contra hle
  push_neg at hle
  rcases Nat.lt_or_ge j i with hlt | hge
  · obtain ⟨hi, hgi⟩ := List.get?_eq_some.mp ha
    obtain ⟨hj, hgj⟩ := List.get?_eq_some.mp hb
    have := List.pairwise_iff_get.mp hs ⟨j, hj⟩ ⟨i, hi⟩ hlt
    rw [hgi, hgj] at this
    exact absurd hab (asymm this)
  · have hij : i = j := le_antisymm hge hle
    subst hij
    rw [ha] at hb
    cases hb
    exact lt_irrefl a hab

/-- Round-trip through a written segment: every record written by
`dump_to_file` is found again by the `SparseIndexSST.get` reader. -/
theorem segGet_dumpSeg [LinearOrder K] (serLen : K × V → Nat)
    (hser : ∀ p, 0 < serLen p) (m : Nat) (data : List (K × V))
    (hsorted : List.Sorted (· < ·) (data.map Prod.fst))
    (k : K) (v : V) (hmem : (k, v) ∈ data) :
    segGet (dumpSeg serLen m data) k = some v := by
  obtain ⟨⟨t, ht⟩, hget⟩ := List.mem_iff_get.mp hmem
  have hkm_t : (data.map Prod.fst).get? t = some k := by
    rw [List.get?_map, List.get?_eq_get ht, hget]
    rfl
  have hnodup : (data.map Prod.fst).Nodup := hsorted.imp (fun h => ne_of_lt h)
  have hks_sorted : List.Sorted (· < ·) ((sidxFrom serLen m 0 0 data).map Prod.fst) :=
    List.Pairwise.sublist (sidx_keys_sublist serLen m 0 0 data) hsorted
  have hentry : ∃ e j p',
      (sidxFrom serLen m 0 0 data).get?
        (max 0 (bisect_left ((sidxFrom serLen m 0 0 data).map Prod.fst) k - 1)) = some e ∧
      data.get? j = some p' ∧ p'.1 = e.1 ∧
      (offsetsFrom serLen 0 data).get? j = some e.2 ∧ j ≤ t := by
    by_cases hq : bisect_left ((sidxFrom serLen m 0 0 data).map Prod.fst) k = 0
    · cases data with
      | nil => cases hmem
      | cons d0 rest =>
        refine ⟨(d0.1, 0), 0, d0, ?_, rfl, rfl, rfl, Nat.zero_le t⟩
        rw [hq]
        show (sidxFrom serLen m 0 0 (d0 :: rest)).get? 0 = some (d0.1, 0)
        rw [sidxFrom, if_pos (Nat.zero_mod m)]
        rfl
    · have hqpos : 0 < bisect_left ((sidxFrom serLen m 0 0 data).map Prod.fst) k :=
        Nat.pos_of_ne_zero hq
      obtain ⟨a, ha, hak⟩ := bisect_left_pred _ k hqpos
      have hlen : bisect_left ((sidxFrom serLen m 0 0 data).map Prod.fst) k - 1 <
          (sidxFrom serLen m 0 0 data).length := by
        have h1 := bisect_left_le_length ((sidxFrom serLen m 0 0 data).map Prod.fst) k
        rw [List.length_map] at h1
        omega
      obtain ⟨e, hsome⟩ : ∃ e, (sidxFrom serLen m 0 0 data).get?
          (bisect_left ((sidxFrom serLen m 0 0 data).map Prod.fst) k - 1) = some e :=
        ⟨_, List.get?_eq_get hlen⟩
      have hea : e.1 = a := by
        rw [List.get?_map, hsome] at ha
        simpa using ha
      obtain ⟨j, p', hj, hp1, hoffj⟩ :=
        sidx_entry serLen m 0 0 data e (List.get?_mem hsome)
      have he1k : e.1 < k := hea ▸ hak
      have hjt : j < t := by
        refine sorted_get?_lt (data.map Prod.fst) hsorted j t e.1 k ?_ hkm_t he1k
        rw [List.get?_map, hj]
        simpa using hp1
      refine ⟨e, j, p', ?_, hj, hp1, hoffj, le_of_lt hjt⟩
      rw [Nat.max_eq_right (Nat.zero_le _)]
      exact hsome
  obtain ⟨e, j, p', hsel, hj, hp1, hoffj, hjt⟩ := hentry
  have hoffs_nodup : (offsetsFrom serLen 0 data).Nodup :=
    (offsetsFrom_sorted serLen hser 0 data).imp (fun h => ne_of_lt h)
  have hidx : (offsetsFrom serLen 0 data).indexOf e.2 = j :=
    indexOf_of_get? _ j e.2 hoffs_nodup hoffj
  have hmem_drop : (k, v) ∈ data.drop j := by
    have hg : (data.drop j).get? (t - j) = some (k, v) := by
      rw [List.get?_drop]
      have hjt' : j + (t - j) = t := by omega
      rw [hjt', List.get?_eq_get ht, hget]
    exact List.get?_mem hg
  have hnd_drop : ((data.drop j).map Prod.fst).Nodup := by
    rw [List.map_drop]
    exact List.Nodup.sublist (List.drop_sublist _ _) hnodup
  show segGet (dumpSeg serLen m data) k = some v
  rw [segGet]
  simp only [dumpSeg]
  rw [hsel]
  simp only
  rw [hidx, find_nodup_keys _ k v hnd_drop hmem_drop]
  rfl

/-- Reader soundness: a hit can only come from a record actually in the
file. -/
theorem segGet_mem [LinearOrder K] (f : SegFile K V) (key : K) (v : V)
    (h : segGet f key = some v) : (key, v) ∈ f.records := by
  rw [segGet] at h
  rcases hsel : f.sparse_index.get?
      (max 0 (bisect_left (f.sparse_index.map Prod.fst) key - 1)) with _ | e
  · rw [hsel] at h
    cases h
  · rw [hsel] at h
    simp only at h
    rcases hf : (f.records.drop (f.offsets.indexOf e.2)).find?
        (fun p => p.1 = key) with _ | p
    · rw [hf] at h
      cases h
    · rw [hf] at h
      have hp := List.find?_some hf
      have hpm := List.mem_of_find?_eq_some hf
      have hpk : p.1 = key := by simpa using hp
      have hpv : p.2 = v := by
        simpa using h
      have : p = (key, v) := by
        cases p
        simp_all
      rw [← this]
      exact List.mem_of_mem_drop hpm

end SegFileLemmas

theorem mgrDumpE_refines_mgrDump {K V : Type} (serLen : K × V → Nat) (H : K → Nat → Nat)
    (mgr : SSTManager K V) (data : List (K × V)) :
    mgrDumpE serLen H false mgr data = .ok (mgrDump serLen H mgr data) := by
  rw [mgrDumpE, mgrDump]
  split <;> rfl

/-! ## Claim theorems -/

/-- C9.  Frame property of compaction: `compact_sst_files` rebuilds only
the `sst_manager` (counter, Bloom filters, directory); the AVL tree, the
tier-2 dict, `memory_threshold` and `item_count` are exactly the ones of
the input state. -/
theorem compact_frame {K V : Type} [LinearOrder K] (serLen : K × V → Nat)
    (H : K → Nat → Nat) (s : KeyValueStore K V) :
    (storeCompact serLen H s).avl_tree = s.avl_tree ∧
    (storeCompact serLen H s).red_black_tree = s.red_black_tree ∧
    (storeCompact serLen H s).memory_threshold = s.memory_threshold ∧
    (storeCompact serLen H s).item_count = s.item_count :=
  ⟨rfl, rfl, rfl, rfl⟩

/-- Segment Bloom filter correctness: keys written to a segment are always
reported by its filter. -/
theorem segBloom_contains {K V : Type} (H : K → Nat → Nat) (data : List (K × V))
    (k : K) (hk : k ∈ data.map Prod.fst) :
    BloomFilter.contains H (segBloom H data) k = true := by
  exact BloomFilter.contains_foldl_add H _ (BloomFilter.init_length 1000 3)
    (by norm_num [BloomFilter.init]) _ k hk

/-- C5.  Zero false negatives: from a freshly constructed filter (any
positive bit-count), after any sequence of `add` calls containing
`add(k)`, `contains(k)` is true; consequently the filter `dump_to_file`
associates with a segment reports every key written into that segment. -/
theorem bloom_zero_false_negatives {K V : Type} (H : K → Nat → Nat) :
    (∀ (size hash_count : Nat), 0 < size → ∀ (ks : List K) (k : K), k ∈ ks →
      BloomFilter.contains H (ks.foldl (BloomFilter.add H)
        (BloomFilter.init size hash_count)) k = true) ∧
    (∀ (data : List (K × V)) (k : K), k ∈ data.map Prod.fst →
      BloomFilter.contains H (segBloom H data) k = true) := by
  constructor
  · intro size hash_count hpos ks k hk
    exact BloomFilter.contains_foldl_add H _ (BloomFilter.init_length size hash_count)
      hpos ks k hk
  · intro data k hk
    exact segBloom_contains H data k hk

theorem bloom_zero_false_negatives_witness :
    BloomFilter.contains (fun (k : Nat) i => k + i)
      (([2, 7].foldl (BloomFilter.add (fun k i => k + i)) (BloomFilter.init 5 3))) 7 = true :=
  (bloom_zero_false_negatives (V := Nat) (fun k i => k + i)).1 5 3 (by decide) [2, 7] 7
    (by decide)

namespace AVLTree

variable {K V : Type}

theorem balanced_allNodes {K V : Type} (t : AVLNode K V) (h : Balanced t) :
    AllNodes (fun n => balance_factor n = -1 ∨ balance_factor n = 0 ∨ balance_factor n = 1) t := by
  induction t with
  | nil => trivial
  | node k v hh l r ihl ihr =>
    obtain ⟨hb, hl, hr⟩ := h
    exact ⟨by simp only [balance_factor_node]; omega, ihl hl, ihr hr⟩

theorem foldl_insert_avl {K V : Type} [LinearOrder K] (ops : List (K × V))
    (t : AVLNode K V) (havl : Avl t) (hord : Ordered t) :
    Avl (ops.foldl (fun t p => insertNode t p.1 p.2) t) ∧
      Ordered (ops.foldl (fun t p => insertNode t p.1 p.2) t) := by
  induction ops generalizing t with
  | nil => exact ⟨havl, hord⟩
  | cons p rest ih =>
    exact ih (insertNode t p.1 p.2) (insertNode_avl t p.1 p.2 havl).1
      (ordered_insertNode t p.1 p.2 hord)

end AVLTree

/-- C6.  After any sequence of tier-1 inserts (duplicates included, which
update in place) starting from the empty tree, every node's balance factor
is in `{-1, 0, 1}`, the stored heights are consistent, and the in-order
traversal has strictly ascending (hence duplicate-free) keys. -/
theorem avl_insert_invariants {K V : Type} [LinearOrder K] (ops : List (K × V)) :
    AVLTree.AllNodes
        (fun n => AVLTree.balance_factor n = -1 ∨ AVLTree.balance_factor n = 0 ∨
          AVLTree.balance_factor n = 1)
        (ops.foldl (fun t p => AVLTree.insertNode t p.1 p.2) .nil) ∧
      AVLTree.HeightsOk (ops.foldl (fun t p => AVLTree.insertNode t p.1 p.2) .nil) ∧
      List.Sorted (· < ·)
        ((AVLTree.in_order (ops.foldl (fun t p => AVLTree.insertNode t p.1 p.2) .nil)).map
          Prod.fst) := by
  obtain ⟨havl, hord⟩ := AVLTree.foldl_insert_avl ops .nil trivial List.sorted_nil
  exact ⟨AVLTree.balanced_allNodes _ (AVLTree.avl_balanced _ havl),
    AVLTree.avl_heightsOk _ havl, hord⟩

/-- C7 counterexample: an I/O failure while writing a segment does *not*
propagate — `dump_to_file` catches every exception, so the call returns
normally (here: on a fresh manager, with one record to write and the
write failing, the result is `.ok` with the counter bumped, not an
error). -/
theorem dump_write_error_not_raised :
    mgrDumpE (K := Nat) (V := Nat) (fun _ => 1) (fun _ _ => 0) true
        (SSTManager.init 3) [(0, 0)] =
      .ok ⟨3, 1, [], []⟩ := by
  rfl

/-- C7 amended: a write-side I/O error during a segment write (flush or
compacted write) is caught and logged by `dump_to_file`; the call always
returns normally, and on failure with non-empty data the only state
change is the `file_counter` increment (no file, no Bloom filter). -/
theorem dump_write_error_swallowed {K V : Type} (serLen : K × V → Nat)
    (H : K → Nat → Nat) (mgr : SSTManager K V) (data : List (K × V)) (fail : Bool) :
    (mgrDumpE serLen H fail mgr data).isOk = true ∧
      (data.isEmpty = false → mgrDumpE serLen H true mgr data =
        .ok { mgr with file_counter := mgr.file_counter + 1 }) := by
  constructor
  · rw [mgrDumpE]
    split
    · rfl
    · split <;> rfl
  · intro hne
    rw [mgrDumpE, hne]
    rfl

section DictLemmas

variable {α β : Type} [DecidableEq α]

theorem dictInsert_fresh (d : List (α × β)) (k : α) (v : β)
    (h : k ∉ d.map Prod.fst) : dictInsert d k v = d ++ [(k, v)] := by
  induction d with
  | nil => rfl
  | cons q rest ih =>
    obtain ⟨k', v'⟩ := q
    rw [List.map_cons, List.mem_cons] at h
    push_neg at h
    rw [dictInsert, if_neg (fun hc => h.1 hc.symm), ih h.2]
    rfl

theorem dictInsert_map_fst_mem (d : List (α × β)) (k : α) (v : β)
    (h : k ∈ d.map Prod.fst) : (dictInsert d k v).map Prod.fst = d.map Prod.fst := by
  induction d with
  | nil => cases h
  | cons q rest ih =>
    obtain ⟨k', v'⟩ := q
    by_cases hk : k' = k
    · rw [dictInsert, if_pos hk]
      simp [hk]
    · rw [List.map_cons, List.mem_cons] at h
      rcases h with h | h
      · exact absurd h.symm hk
      · rw [dictInsert, if_neg hk, List.map_cons, List.map_cons, ih h]

theorem dictInsert_keys_nodup (d : List (α × β)) (k : α) (v : β)
    (h : (d.map Prod.fst).Nodup) : ((dictInsert d k v).map Prod.fst).Nodup := by
  by_cases hk : k ∈ d.map Prod.fst
  · rw [dictInsert_map_fst_mem d k v hk]
    exact h
  · rw [dictInsert_fresh d k v hk, List.map_append]
    rw [List.nodup_append]
    exact ⟨h, List.nodup_singleton k, by
      intro a ha hb
      simp only [List.map_cons, List.map_nil, List.mem_singleton] at hb
      subst hb
      exact hk ha⟩

theorem dictInsert_length_ge (d : List (α × β)) (k : α) (v : β) :
    d.length ≤ (dictInsert d k v).length := by
  induction d with
  | nil => simp [dictInsert]
  | cons q rest ih =>
    rw [dictInsert]
    split
    · simp
    · simpa using ih

theorem dictInsert_length_pos (d : List (α × β)) (k : α) (v : β) :
    1 ≤ (dictInsert d k v).length := by
  cases d with
  | nil => simp [dictInsert]
  | cons q rest =>
    rw [dictInsert]
    split <;> simp

theorem dictGet_append (d1 d2 : List (α × β)) (k : α) :
    dictGet (d1 ++ d2) k = ((dictGet d1 k).or (dictGet d2 k)) := by
  rw [dictGet, List.find?_append, dictGet, dictGet]
  have hmap : ∀ (o o' : Option (α × β)),
      (o.or o').map Prod.snd = (o.map Prod.snd).or (o'.map Prod.snd) := by
    intro o o'
    cases o <;> rfl
  exact hmap _ _

theorem dictGet_none (d : List (α × β)) (k : α) (h : k ∉ d.map Prod.fst) :
    dictGet d k = none := by
  rw [dictGet, List.find?_eq_none.mpr]
  · rfl
  intro p hp
  simp only [decide_eq_true_eq]
  intro hpk
  exact h (hpk ▸ List.mem_map_of_mem Prod.fst hp)

theorem dictGet_mem (d : List (α × β)) (k : α) (v : β) (h : dictGet d k = some v) :
    (k, v) ∈ d := by
  rw [dictGet] at h
  rcases hf : d.find? (fun p => p.1 = k) with _ | p
  · rw [hf] at h
    cases h
  · rw [hf] at h
    have hp := List.find?_some hf
    have hpm := List.mem_of_find?_eq_some hf
    have hpk : p.1 = k := by simpa using hp
    have hpv : p.2 = v := by simpa using h
    have : p = (k, v) := by
      cases p
      simp_all
    exact this ▸ hpm

theorem dictGet_of_mem_nodup (d : List (α × β)) (k : α) (v : β)
    (hnd : (d.map Prod.fst).Nodup) (hmem : (k, v) ∈ d) : dictGet d k = some v := by
  rw [dictGet, find_nodup_keys d k v hnd hmem]
  rfl

theorem dictContains_iff (d : List (α × β)) (k : α) :
    dictContains d k = true ↔ k ∈ d.map Prod.fst := by
  rw [dictContains, List.any_eq_true]
  constructor
  · rintro ⟨p, hp, hpk⟩
    simp only [decide_eq_true_eq] at hpk
    exact hpk ▸ List.mem_map_of_mem Prod.fst hp
  · intro h
    obtain ⟨p, hp, hpk⟩ := List.mem_map.mp h
    exact ⟨p, hp, by simp [hpk]⟩

end DictLemmas

section SortLemmas

variable {K V : Type} [LinearOrder K]

theorem insertSortedKV_perm (p : K × V) (l : List (K × V)) :
    (insertSortedKV p l).Perm (p :: l) := by
  induction l with
  | nil => exact List.Perm.refl _
  | cons q qs ih =>
    rw [insertSortedKV]
    split
    · exact List.Perm.refl _
    · exact (List.Perm.cons q ih).trans (List.Perm.swap p q qs)

theorem sortKV_perm (l : List (K × V)) : (sortKV l).Perm l := by
  induction l with
  | nil => exact List.Perm.refl _
  | cons p rest ih =>
    rw [sortKV, List.foldr_cons]
    exact (insertSortedKV_perm p _).trans (List.Perm.cons p ih)

theorem insertSortedKV_sorted (p : K × V) (l : List (K × V))
    (hs : List.Sorted (fun a b : K × V => a.1 ≤ b.1) l) :
    List.Sorted (fun a b : K × V => a.1 ≤ b.1) (insertSortedKV p l) := by
  induction l with
  | nil => simp [insertSortedKV]
  | cons q qs ih =>
    obtain ⟨hq, hqs⟩ := List.sorted_cons.mp hs
    rw [insertSortedKV]
    split
    · refine List.sorted_cons.mpr ⟨?_, hs⟩
      intro b hb
      rcases List.mem_cons.mp hb with rfl | hb
      · assumption
      · exact le_trans (by assumption) (hq b hb)
    · refine List.sorted_cons.mpr ⟨?_, ih hqs⟩
      intro b hb
      have := (insertSortedKV_perm p qs).mem_iff.mp hb
      rcases List.mem_cons.mp this with rfl | hb'
      · exact le_of_lt (lt_of_not_le (by assumption))
      · exact hq b hb'

theorem sortKV_sorted (l : List (K × V)) :
    List.Sorted (fun a b : K × V => a.1 ≤ b.1) (sortKV l) := by
  induction l with
  | nil => simp [sortKV]
  | cons p rest ih =>
    rw [sortKV, List.foldr_cons]
    exact insertSortedKV_sorted p _ ih

theorem sortKV_sorted_strict (l : List (K × V)) (hnd : (l.map Prod.fst).Nodup) :
    List.Sorted (· < ·) ((sortKV l).map Prod.fst) := by
  have hperm : ((sortKV l).map Prod.fst).Perm (l.map Prod.fst) :=
    (sortKV_perm l).map Prod.fst
  have hnd' : ((sortKV l).map Prod.fst).Nodup := hperm.nodup_iff.mpr hnd
  have hle : List.Sorted (· ≤ ·) ((sortKV l).map Prod.fst) := by
    rw [List.Sorted, List.pairwise_map]
    exact sortKV_sorted l
  exact hle.lt_of_le hnd'

theorem sortKV_ne_nil (l : List (K × V)) (h : l ≠ []) : sortKV l ≠ [] := by
  intro hc
  have hp : ([] : List (K × V)).Perm l := hc ▸ sortKV_perm l
  exact h hp.nil_eq.symm

end SortLemmas

/-- C4.  Round-trip through a segment file: any non-empty, key-sorted,
duplicate-free sequence written by the §4.4 writer protocol is fully
recovered by the reader protocol on each of its keys.  (`0 < serLen p`
reflects that a pickle frame is at least one byte; `0 < interval` that
`i % 0` would raise in Python.) -/
theorem segment_roundtrip {K V : Type} [LinearOrder K] (serLen : K × V → Nat)
    (hser : ∀ p, 0 < serLen p) (interval : Nat) (hint : 0 < interval)
    (S : List (K × V)) (hne : S ≠ [])
    (hsorted : List.Sorted (· < ·) (S.map Prod.fst)) :
    ∀ k v, (k, v) ∈ S → segGet (dumpSeg serLen interval S) k = some v := by
  intro k v hmem
  exact segGet_dumpSeg serLen hser interval S hsorted k v hmem

theorem segment_roundtrip_witness :
    segGet (dumpSeg (fun _ => (1 : Nat)) 3 [((1 : Nat), (10 : Nat)), (2, 20), (3, 30)]) 2 =
      some 20 :=
  segment_roundtrip (fun _ => 1) (fun _ => Nat.one_pos) 3 (by decide)
    [(1, 10), (2, 20), (3, 30)] (by decide) (by decide) 2 20 (by decide)

theorem dictGet_singleton {K V : Type} (c i : Nat) (f : SegFile K V) :
    dictGet [(c, f)] i = if c = i then some f else none := by
  by_cases h : c = i <;> simp [dictGet, List.find?, h]

theorem mgrDump_inv {K V : Type} [LinearOrder K] (serLen : K × V → Nat)
    (H : K → Nat → Nat) (mgr : SSTManager K V) (data : List (K × V))
    (hinv : MgrInv serLen H mgr) (hsorted : List.Sorted (· < ·) (data.map Prod.fst)) :
    MgrInv serLen H (mgrDump serLen H mgr data) := by
  obtain ⟨hkeys, hblen, hlook⟩ := hinv
  rw [mgrDump]
  by_cases hemp : data.isEmpty
  · rw [if_pos hemp]
    exact ⟨hkeys, hblen, hlook⟩
  · rw [if_neg hemp]
    have hne : data ≠ [] := by
      intro hc
      rw [hc] at hemp
      exact hemp rfl
    have hcnot : mgr.file_counter ∉ mgr.dir.map Prod.fst := by
      rw [hkeys]
      intro hc
      exact absurd (List.mem_range.mp hc) (lt_irrefl _)
    have hins : dictInsert mgr.dir mgr.file_counter
        (dumpSeg serLen mgr.sparse_interval data) =
        mgr.dir ++ [(mgr.file_counter, dumpSeg serLen mgr.sparse_interval data)] :=
      dictInsert_fresh _ _ _ hcnot
    refine ⟨?_, ?_, ?_⟩
    · simp only [hins, List.map_append, List.map_cons, List.map_nil, hkeys,
        List.range_succ]
    · simp only [List.length_append, List.length_cons, List.length_nil, hblen]
    · intro i f hget
      simp only [hins] at hget
      rw [dictGet_append] at hget
      rcases hold : dictGet mgr.dir i with _ | f₀
      · rw [hold] at hget
        simp only [Option.or] at hget
        rw [dictGet_singleton] at hget
        by_cases hci : mgr.file_counter = i
        · rw [if_pos hci] at hget
          cases hget
          refine ⟨data, rfl, hne, hsorted, ?_⟩
          show (mgr.bloom_filters ++ [segBloom H data]).get? i = some (segBloom H data)
          rw [← hci, List.get?_append_right (le_of_eq hblen)]
          simp [hblen]
        · rw [if_neg hci] at hget
          cases hget
      · rw [hold] at hget
        simp only [Option.or] at hget
        cases hget
        obtain ⟨d₀, hd₀, hd₀ne, hd₀s, hd₀b⟩ := hlook i f hold
        have hic : i < mgr.file_counter := by
          have hmm : i ∈ mgr.dir.map Prod.fst :=
            List.mem_map_of_mem Prod.fst (dictGet_mem _ _ _ hold)
          rw [hkeys] at hmm
          exact List.mem_range.mp hmm
        refine ⟨d₀, hd₀, hd₀ne, hd₀s, ?_⟩
        show (mgr.bloom_filters ++ [segBloom H data]).get? i = some (segBloom H d₀)
        rw [List.get?_append (by rw [hblen]; exact hic)]
        exact hd₀b

theorem compactLoop_aligned {K V : Type} [LinearOrder K]
    (dir : List (Nat × SegFile K V)) (acc : List (K × V)) :
    compactLoop (dir.map Prod.fst) dir acc =
      (dir.foldl (fun a pf => pf.2.records.foldl (fun d p => dictInsert d p.1 p.2) a) acc,
        ([] : List (Nat × SegFile K V))) := by
  induction dir generalizing acc with
  | nil => rfl
  | cons q rest ih =>
    obtain ⟨i, f⟩ := q
    have hget : dictGet ((i, f) :: rest) i = some f := by
      simp [dictGet, List.find?]
    have hrem : dictRemove ((i, f) :: rest) i = rest := by
      rw [dictRemove, if_pos rfl]
    rw [List.map_cons, compactLoop, hget, hrem]
    simpa using ih (f.records.foldl (fun d p => dictInsert d p.1 p.2) acc)

theorem segRecords_mem {K V : Type} [LinearOrder K] (mgr : SSTManager K V) (k : K) (v : V)
    (hmem : (k, v) ∈ segRecords mgr) :
    ∃ i f, i < mgr.file_counter ∧ dictGet mgr.dir i = some f ∧ (k, v) ∈ f.records := by
  rw [segRecords, List.mem_flatten] at hmem
  obtain ⟨l, hl, hkl⟩ := hmem
  obtain ⟨i, hir, hrec⟩ := List.mem_map.mp hl
  rcases hget : dictGet mgr.dir i with _ | f
  · rw [hget] at hrec
    rw [← hrec] at hkl
    cases hkl
  · rw [hget] at hrec
    refine ⟨i, f, List.mem_range.mp hir, hget, ?_⟩
    rw [← hrec] at hkl
    exact hkl

theorem segRecords_unique {K V : Type} [LinearOrder K] (mgr : SSTManager K V)
    (hnd : ((segRecords mgr).map Prod.fst).Nodup)
    (i j : Nat) (hi : i < mgr.file_counter) (hj : j < mgr.file_counter) (hij : i ≠ j)
    (fi fj : SegFile K V) (hfi : dictGet mgr.dir i = some fi)
    (hfj : dictGet mgr.dir j = some fj) (k : K)
    (hki : k ∈ fi.records.map Prod.fst) (hkj : k ∈ fj.records.map Prod.fst) : False := by
  rw [segRecords, List.map_flatten, List.map_map] at hnd
  have hdisj := (List.nodup_flatten.mp hnd).2
  have hlen : ((List.range mgr.file_counter).map
      (List.map Prod.fst ∘ fun i =>
        match dictGet mgr.dir i with | some f => f.records | none => [])).length =
      mgr.file_counter := by
    rw [List.length_map, List.length_range]
  have hchunk : ∀ (a : Nat) (ha : a < mgr.file_counter) (fa : SegFile K V),
      dictGet mgr.dir a = some fa →
      ((List.range mgr.file_counter).map
        (List.map Prod.fst ∘ fun i =>
          match dictGet mgr.dir i with | some f => f.records | none => [])).get
          ⟨a, by rw [hlen]; exact ha⟩ = fa.records.map Prod.fst := by
    intro a ha fa hfa
    rw [List.get_eq_getElem, List.getElem_map, List.getElem_range _]
    show List.map Prod.fst
        (match dictGet mgr.dir a with | some f => f.records | none => []) =
      fa.records.map Prod.fst
    rw [hfa]
  have hpair := List.pairwise_iff_get.mp hdisj
  rcases Nat.lt_or_ge i j with hlt | hge
  · have := hpair ⟨i, by rw [hlen]; exact hi⟩ ⟨j, by rw [hlen]; exact hj⟩ hlt
    rw [hchunk i hi fi hfi, hchunk j hj fj hfj] at this
    exact this hki hkj
  · have hlt : j < i := lt_of_le_of_ne hge (Ne.symm hij)
    have := hpair ⟨j, by rw [hlen]; exact hj⟩ ⟨i, by rw [hlen]; exact hi⟩ hlt
    rw [hchunk i hi fi hfi, hchunk j hj fj hfj] at this
    exact this hkj hki

theorem mgrGetLoop_hit {K V : Type} [LinearOrder K] (serLen : K × V → Nat)
    (H : K → Nat → Nat) (mgr : SSTManager K V) (hser : ∀ p, 0 < serLen p)
    (hinv : MgrInv serLen H mgr) (k : K) (v : V) (is : List Nat) (i₀ : Nat)
    (hi₀ : i₀ ∈ is) (f₀ : SegFile K V) (hf₀ : dictGet mgr.dir i₀ = some f₀)
    (hmem : (k, v) ∈ f₀.records)
    (huniq : ∀ j ∈ is, j ≠ i₀ → ∀ f, dictGet mgr.dir j = some f →
      k ∉ f.records.map Prod.fst) :
    mgrGetLoop H mgr k is = some v := by
  induction is with
  | nil => cases hi₀
  | cons i rest ih =>
    by_cases hii : i = i₀
    · subst hii
      obtain ⟨data, hfd, hdne, hds, hdb⟩ := hinv.2.2 i f₀ hf₀
      have hrecs : f₀.records = data := by rw [hfd]; rfl
      have hkdata : k ∈ data.map Prod.fst := by
        rw [← hrecs]
        exact List.mem_map_of_mem Prod.fst hmem
      have hgetd : mgr.bloom_filters.getD i (BloomFilter.init 1000 3) = segBloom H data := by
        rw [List.getD_eq_getElem?_getD, ← List.get?_eq_getElem?, hdb]
        rfl
      rw [mgrGetLoop, hgetd, if_pos (segBloom_contains H data k hkdata), hf₀]
      have hsg : segGet f₀ k = some v := by
        rw [hfd]
        exact segGet_dumpSeg serLen hser mgr.sparse_interval data hds k v
          (by rw [← hrecs]; exact hmem)
      show (match segGet f₀ k with
        | some v' => some v'
        | none => mgrGetLoop H mgr k rest) = some v
      rw [hsg]
    · have hi₀' : i₀ ∈ rest := by
        rcases List.mem_cons.mp hi₀ with h | h
        · exact absurd h.symm hii
        · exact h
      have htail := ih hi₀' (fun j hj => huniq j (List.mem_cons_of_mem i hj))
      rw [mgrGetLoop]
      split
      · rcases hget : dictGet mgr.dir i with _ | f
        · exact htail
        · have hk : k ∉ f.records.map Prod.fst :=
            huniq i (List.mem_cons_self i rest) hii f hget
          show (match segGet f k with
            | some v' => some v'
            | none => mgrGetLoop H mgr k rest) = some v
          rcases hsg : segGet f k with _ | v'
          · exact htail
          · exact absurd (List.mem_map_of_mem Prod.fst (segGet_mem f k v' hsg)) hk
      · exact htail

theorem storeGet_of_contents {K V : Type} [LinearOrder K] (serLen : K × V → Nat)
    (H : K → Nat → Nat) (s : KeyValueStore K V) (hser : ∀ p, 0 < serLen p)
    (hinv : StoreInv serLen H s) (hnd : ((contents s).map Prod.fst).Nodup)
    (k : K) (v : V) (hmem : (k, v) ∈ contents s) : storeGet H s k = some v := by
  obtain ⟨havl, hord, hrbt, hmgr⟩ := hinv
  rw [contents] at hnd hmem
  rw [List.map_append, List.map_append, List.nodup_append] at hnd
  obtain ⟨hndAB, hndC, hdisjABC⟩ := hnd
  rw [List.nodup_append] at hndAB
  obtain ⟨hndA, hndB, hdisjAB⟩ := hndAB
  rcases List.mem_append.mp hmem with hAB | hC
  · rcases List.mem_append.mp hAB with hA | hB
    · have hfind := find_nodup_keys _ k v hndA hA
      rw [storeGet, hfind]
    · have hkB : k ∈ s.red_black_tree.map Prod.fst := List.mem_map_of_mem Prod.fst hB
      have hkA : k ∉ (AVLTree.in_order s.avl_tree).map Prod.fst :=
        fun hc => hdisjAB hc hkB
      have hfindA : (AVLTree.in_order s.avl_tree).find? (fun p => p.1 = k) = none := by
        rw [List.find?_eq_none]
        intro x hx
        simp only [decide_eq_true_eq]
        intro hxk
        exact hkA (hxk ▸ List.mem_map_of_mem Prod.fst hx)
      have hcont : dictContains s.red_black_tree k = true := (dictContains_iff _ _).mpr hkB
      rw [storeGet, hfindA]
      rw [if_pos hcont]
      exact dictGet_of_mem_nodup _ k v hndB hB
  · have hkC : k ∈ (segRecords s.sst_manager).map Prod.fst :=
      List.mem_map_of_mem Prod.fst hC
    have hkA : k ∉ (AVLTree.in_order s.avl_tree).map Prod.fst := fun hc =>
      hdisjABC (List.mem_append.mpr (Or.inl hc)) hkC
    have hkB : k ∉ s.red_black_tree.map Prod.fst := fun hc =>
      hdisjABC (List.mem_append.mpr (Or.inr hc)) hkC
    have hfindA : (AVLTree.in_order s.avl_tree).find? (fun p => p.1 = k) = none := by
      rw [List.find?_eq_none]
      intro x hx
      simp only [decide_eq_true_eq]
      intro hxk
      exact hkA (hxk ▸ List.mem_map_of_mem Prod.fst hx)
    have hcont : ¬ dictContains s.red_black_tree k = true := fun hc =>
      hkB ((dictContains_iff _ _).mp hc)
    rw [storeGet, hfindA, if_neg hcont, mgrGet]
    obtain ⟨i₀, f₀, hi₀c, hf₀, hmemf⟩ := segRecords_mem s.sst_manager k v hC
    refine mgrGetLoop_hit serLen H s.sst_manager hser hmgr k v _ i₀
      (List.mem_range.mpr hi₀c) f₀ hf₀ hmemf ?_
    intro j hj hji f hf hkf
    exact segRecords_unique s.sst_manager hndC j i₀ (List.mem_range.mp hj) hi₀c hji
      f f₀ hf hf₀ k hkf (List.mem_map_of_mem Prod.fst hmemf)

theorem insertPair_perm_fresh {K V : Type} [LinearOrder K] (k : K) (v : V)
    (l : List (K × V)) (hfresh : k ∉ l.map Prod.fst) :
    (AVLTree.insertPair k v l).Perm ((k, v) :: l) := by
  induction l with
  | nil => exact List.Perm.refl _
  | cons q rest ih =>
    obtain ⟨k', v'⟩ := q
    rw [List.map_cons, List.mem_cons] at hfresh
    push_neg at hfresh
    by_cases h1 : k < k'
    · rw [AVLTree.insertPair, if_pos h1]
    · have h2 : k' < k := lt_of_le_of_ne (not_lt.mp h1) (fun hc => hfresh.1 hc.symm)
      rw [AVLTree.insertPair, if_neg h1, if_pos h2]
      exact (List.Perm.cons _ (ih hfresh.2)).trans (List.Perm.swap (k, v) (k', v') rest)

theorem perm_snoc_middle {α : Type} (A B C : List α) (a : α) :
    (A ++ (B ++ [a]) ++ C).Perm (a :: (A ++ B ++ C)) := by
  have h1 : A ++ (B ++ [a]) ++ C = (A ++ B) ++ (a :: C) := by
    simp [List.append_assoc]
  rw [h1]
  exact List.perm_middle

theorem perm_flush_shape {α : Type} (A B C S : List α) (a : α)
    (hS : S.Perm (B ++ [a])) : (A ++ [] ++ (C ++ S)).Perm (a :: (A ++ B ++ C)) := by
  rw [List.append_nil]
  have h2 : (C ++ S).Perm (a :: (B ++ C)) := by
    refine ((List.Perm.append_left C hS).trans List.perm_append_comm).trans ?_
    have hx : (B ++ [a]) ++ C = B ++ (a :: C) := by simp [List.append_assoc]
    rw [hx]
    exact List.perm_middle
  have h3 : (A ++ (C ++ S)).Perm (A ++ (a :: (B ++ C))) := List.Perm.append_left A h2
  refine h3.trans ?_
  have h4 : (A ++ (a :: (B ++ C))).Perm (a :: (A ++ (B ++ C))) := List.perm_middle
  rw [← List.append_assoc] at h4
  exact h4

/-- Under the directory-layout invariant, a non-empty dump appends exactly
its data to the manager's record pool. -/
theorem segRecords_mgrDump {K V : Type} [LinearOrder K] (serLen : K × V → Nat)
    (H : K → Nat → Nat) (mgr : SSTManager K V) (data : List (K × V))
    (hkeys : mgr.dir.map Prod.fst = List.range mgr.file_counter)
    (hne : ¬ data.isEmpty = true) :
    segRecords (mgrDump serLen H mgr data) = segRecords mgr ++ data := by
  rw [mgrDump, if_neg hne]
  have hcnot : mgr.file_counter ∉ mgr.dir.map Prod.fst := by
    rw [hkeys]
    intro hc
    exact absurd (List.mem_range.mp hc) (lt_irrefl _)
  have hins : dictInsert mgr.dir mgr.file_counter
      (dumpSeg serLen mgr.sparse_interval data) =
      mgr.dir ++ [(mgr.file_counter, dumpSeg serLen mgr.sparse_interval data)] :=
    dictInsert_fresh _ _ _ hcnot
  rw [segRecords, segRecords]
  show ((List.range (mgr.file_counter + 1)).map
      (fun i => match dictGet (dictInsert mgr.dir mgr.file_counter
        (dumpSeg serLen mgr.sparse_interval data)) i with
        | some f => f.records | none => [])).flatten = _
  rw [List.range_succ, List.map_append, List.flatten_append]
  congr 1
  · congr 1
    refine List.map_congr_left ?_
    intro i hi
    have hic : i < mgr.file_counter := List.mem_range.mp hi
    rw [hins, dictGet_append, dictGet_singleton,
      if_neg (fun hc => absurd (hc ▸ hic) (lt_irrefl _))]
    rcases hget : dictGet mgr.dir i with _ | f <;> rfl
  · have hnone : dictGet mgr.dir mgr.file_counter = none := dictGet_none _ _ hcnot
    simp only [List.map_cons, List.map_nil, hins, dictGet_append, hnone,
      dictGet_singleton, if_pos rfl, List.flatten]
    show (dumpSeg serLen mgr.sparse_interval data).records ++ [].flatten = data
    simp [dumpSeg]

/-- One `insert` call on a key absent from the whole store: the invariant
is preserved and the logical contents gain exactly the new pair. -/
theorem storeInsert_inv_contents {K V : Type} [LinearOrder K] (serLen : K × V → Nat)
    (H : K → Nat → Nat) (s : KeyValueStore K V) (k : K) (v : V)
    (hinv : StoreInv serLen H s) (hfresh : k ∉ (contents s).map Prod.fst) :
    StoreInv serLen H (storeInsert serLen H s k v) ∧
      (contents (storeInsert serLen H s k v)).Perm ((k, v) :: contents s) := by
  obtain ⟨havl, hord, hrbt, hmgr⟩ := hinv
  rw [contents, List.map_append, List.map_append] at hfresh
  have hfA : k ∉ (AVLTree.in_order s.avl_tree).map Prod.fst := fun hc =>
    hfresh (List.mem_append.mpr (Or.inl (List.mem_append.mpr (Or.inl hc))))
  have hfB : k ∉ s.red_black_tree.map Prod.fst := fun hc =>
    hfresh (List.mem_append.mpr (Or.inl (List.mem_append.mpr (Or.inr hc))))
  rw [storeInsert]
  by_cases hcnt : s.item_count < s.memory_threshold
  · rw [if_pos hcnt]
    refine ⟨⟨(AVLTree.insertNode_avl _ k v havl).1,
      AVLTree.ordered_insertNode _ k v hord, hrbt, hmgr⟩, ?_⟩
    show (AVLTree.in_order (AVLTree.insertNode s.avl_tree k v) ++
      s.red_black_tree ++ segRecords s.sst_manager).Perm _
    rw [AVLTree.in_order_insertNode _ k v hord]
    exact ((insertPair_perm_fresh k v _ hfA).append_right _).append_right _
  · rw [if_neg hcnt]
    have hB' : dictInsert s.red_black_tree k v = s.red_black_tree ++ [(k, v)] :=
      dictInsert_fresh _ _ _ hfB
    have hndB' : ((dictInsert s.red_black_tree k v).map Prod.fst).Nodup :=
      dictInsert_keys_nodup _ _ _ hrbt
    by_cases hflush : s.memory_threshold ≤ (dictInsert s.red_black_tree k v).length
    · rw [if_pos hflush]
      have hBne : ¬ (sortKV (dictInsert s.red_black_tree k v)).isEmpty = true := by
        have h1 : 1 ≤ (dictInsert s.red_black_tree k v).length :=
          dictInsert_length_pos _ _ _
        have h2 : (sortKV (dictInsert s.red_black_tree k v)).length =
            (dictInsert s.red_black_tree k v).length :=
          (sortKV_perm _).length_eq
        intro hc
        rw [List.isEmpty_iff] at hc
        rw [hc] at h2
        simp at h2
        omega
      refine ⟨⟨havl, hord, List.nodup_nil, mgrDump_inv serLen H _ _ hmgr
        (sortKV_sorted_strict _ hndB')⟩, ?_⟩
      show (AVLTree.in_order s.avl_tree ++ [] ++
        segRecords (mgrDump serLen H s.sst_manager
          (sortKV (dictInsert s.red_black_tree k v)))).Perm _
      rw [segRecords_mgrDump serLen H _ _ hmgr.1 hBne]
      exact perm_flush_shape _ _ _ _ _ ((sortKV_perm _).trans (by rw [hB']))
    · rw [if_neg hflush]
      refine ⟨⟨havl, hord, hndB', hmgr⟩, ?_⟩
      show (AVLTree.in_order s.avl_tree ++ dictInsert s.red_black_tree k v ++
        segRecords s.sst_manager).Perm _
      rw [hB']
      exact perm_snoc_middle _ _ _ _

theorem storeInv_init {K V : Type} [LinearOrder K] (serLen : K × V → Nat)
    (H : K → Nat → Nat) (T m : Nat) :
    StoreInv serLen H (KeyValueStore.init (K := K) (V := V) T m) := by
  refine ⟨trivial, List.sorted_nil, List.nodup_nil, rfl, rfl, ?_⟩
  intro i f h
  simp [dictGet, List.find?] at h

theorem contents_init {K V : Type} (T m : Nat) :
    contents (KeyValueStore.init (K := K) (V := V) T m) = [] := rfl

theorem foldl_insert_run {K V : Type} [LinearOrder K] (serLen : K × V → Nat)
    (H : K → Nat → Nat) (ops : List (K × V)) (s : KeyValueStore K V)
    (hinv : StoreInv serLen H s)
    (hnd : ((contents s).map Prod.fst ++ ops.map Prod.fst).Nodup) :
    StoreInv serLen H (ops.foldl (fun t p => storeInsert serLen H t p.1 p.2) s) ∧
      (contents (ops.foldl (fun t p => storeInsert serLen H t p.1 p.2) s)).Perm
        (contents s ++ ops) := by
  induction ops generalizing s with
  | nil =>
    refine ⟨hinv, ?_⟩
    rw [List.foldl_nil, List.append_nil]
  | cons p rest ih =>
    obtain ⟨k, v⟩ := p
    rw [List.map_cons] at hnd
    have hfresh : k ∉ (contents s).map Prod.fst := by
      rw [List.nodup_append] at hnd
      exact fun hc => hnd.2.2 hc (List.mem_cons_self _ _)
    obtain ⟨hinv', hperm'⟩ := storeInsert_inv_contents serLen H s k v hinv hfresh
    have hnd' : ((contents (storeInsert serLen H s k v)).map Prod.fst ++
        rest.map Prod.fst).Nodup := by
      have hp : ((contents (storeInsert serLen H s k v)).map Prod.fst ++
          rest.map Prod.fst).Perm
          (k :: ((contents s).map Prod.fst ++ rest.map Prod.fst)) :=
        (hperm'.map Prod.fst).append_right _
      have hq : ((contents s).map Prod.fst ++ (k :: rest.map Prod.fst)).Perm
          (k :: ((contents s).map Prod.fst ++ rest.map Prod.fst)) := List.perm_middle
      exact hp.nodup_iff.mpr (hq.nodup_iff.mp hnd)
    obtain ⟨h1, h2⟩ := ih (storeInsert serLen H s k v) hinv' hnd'
    refine ⟨h1, h2.trans ?_⟩
    have h3 : (contents (storeInsert serLen H s k v) ++ rest).Perm
        ((k, v) :: (contents s ++ rest)) := hperm'.append_right rest
    exact h3.trans List.perm_middle.symm

/-- C1.  For every sequence of inserts with pairwise distinct keys run on a
fresh store (any `memory_threshold`, any positive `sparse_interval` —
`sparse_interval = 0` raises `ZeroDivisionError` in Python), `get`
recovers every inserted pair, however many flushes took place. -/
theorem get_after_distinct_inserts {K V : Type} [LinearOrder K] (serLen : K × V → Nat)
    (hser : ∀ p, 0 < serLen p) (H : K → Nat → Nat) (T m : Nat) (hm : 0 < m)
    (ops : List (K × V)) (hnd : (ops.map Prod.fst).Nodup)
    (k : K) (v : V) (hmem : (k, v) ∈ ops) :
    storeGet H (ops.foldl (fun t p => storeInsert serLen H t p.1 p.2)
      (KeyValueStore.init T m)) k = some v := by
  obtain ⟨hinv, hperm⟩ := foldl_insert_run serLen H ops (KeyValueStore.init T m)
    (storeInv_init serLen H T m) (by rw [contents_init]; simpa using hnd)
  rw [contents_init, List.nil_append] at hperm
  refine storeGet_of_contents serLen H _ hser hinv ?_ k v (hperm.mem_iff.mpr hmem)
  exact ((hperm.map Prod.fst).nodup_iff).mpr hnd

theorem get_after_distinct_inserts_witness :
    storeGet (fun k i => k + i)
      (([((1 : Nat), (10 : Nat)), (2, 20), (3, 30)].foldl
        (fun t p => storeInsert (fun _ => 1) (fun k i => k + i) t p.1 p.2)
        (KeyValueStore.init 1 3))) 2 = some 20 :=
  get_after_distinct_inserts (fun _ => 1) (fun _ => Nat.one_pos) (fun k i => k + i)
    1 3 (by decide) [(1, 10), (2, 20), (3, 30)] (by decide) 2 20 (by decide)

/-- Once `item_count` has reached the threshold, `insert` never touches
tier 1 again. -/
theorem storeInsert_past_threshold {K V : Type} [LinearOrder K] (serLen : K × V → Nat)
    (H : K → Nat → Nat) (s : KeyValueStore K V) (k : K) (v : V)
    (hT : s.memory_threshold ≤ s.item_count) :
    (storeInsert serLen H s k v).avl_tree = s.avl_tree ∧
    (storeInsert serLen H s k v).memory_threshold = s.memory_threshold ∧
    (storeInsert serLen H s k v).item_count = s.item_count + 1 := by
  rw [storeInsert, if_neg (not_lt.mpr hT)]
  split
  · exact ⟨rfl, rfl, rfl⟩
  · exact ⟨rfl, rfl, rfl⟩

/-- C8.  Tier-1 staleness: a key resident in tier 1, in a store already
past its tier-1 phase, keeps answering `get` with its tier-1 value no
matter what is inserted afterwards — later reinserts land in tier 2 or
segments and are shadowed. -/
theorem tier1_staleness {K V : Type} [LinearOrder K] (serLen : K × V → Nat)
    (H : K → Nat → Nat) (s : KeyValueStore K V)
    (hT : s.memory_threshold ≤ s.item_count) (k : K) (v : V)
    (hfind : (AVLTree.in_order s.avl_tree).find? (fun p => p.1 = k) = some (k, v))
    (ops : List (K × V)) :
    storeGet H (ops.foldl (fun t p => storeInsert serLen H t p.1 p.2) s) k = some v := by
  induction ops generalizing s with
  | nil =>
    rw [List.foldl_nil, storeGet, hfind]
  | cons p rest ih =>
    obtain ⟨havl, hthr, hcnt⟩ := storeInsert_past_threshold serLen H s p.1 p.2 hT
    rw [List.foldl_cons]
    refine ih (storeInsert serLen H s p.1 p.2) ?_ ?_
    · rw [hthr, hcnt]
      omega
    · rw [havl]
      exact hfind

theorem tier1_staleness_witness :
    storeGet (fun k i => k + i)
      (([((5 : Nat), (200 : Nat))].foldl
        (fun t p => storeInsert (fun _ => 1) (fun k i => k + i) t p.1 p.2)
        ([((5 : Nat), (100 : Nat)), (7, 1)].foldl
          (fun t p => storeInsert (fun _ => 1) (fun k i => k + i) t p.1 p.2)
          (KeyValueStore.init 1 3)))) 5 = some 100 :=
  tier1_staleness (fun _ => 1) (fun k i => k + i) _ (by decide) 5 100 (by decide)
    [(5, 200)]

/-- `insert` preserves the reachable-state invariant (duplicate keys
included). -/
theorem storeInsert_inv {K V : Type} [LinearOrder K] (serLen : K × V → Nat)
    (H : K → Nat → Nat) (s : KeyValueStore K V) (k : K) (v : V)
    (hinv : StoreInv serLen H s) : StoreInv serLen H (storeInsert serLen H s k v) := by
  obtain ⟨havl, hord, hrbt, hmgr⟩ := hinv
  rw [storeInsert]
  by_cases hcnt : s.item_count < s.memory_threshold
  · rw [if_pos hcnt]
    exact ⟨(AVLTree.insertNode_avl _ k v havl).1,
      AVLTree.ordered_insertNode _ k v hord, hrbt, hmgr⟩
  · rw [if_neg hcnt]
    have hndB' : ((dictInsert s.red_black_tree k v).map Prod.fst).Nodup :=
      dictInsert_keys_nodup _ _ _ hrbt
    by_cases hflush : s.memory_threshold ≤ (dictInsert s.red_black_tree k v).length
    · rw [if_pos hflush]
      exact ⟨havl, hord, List.nodup_nil,
        mgrDump_inv serLen H _ _ hmgr (sortKV_sorted_strict _ hndB')⟩
    · rw [if_neg hflush]
      exact ⟨havl, hord, hndB', hmgr⟩

theorem foldl_insert_inv {K V : Type} [LinearOrder K] (serLen : K × V → Nat)
    (H : K → Nat → Nat) (ops : List (K × V)) (s : KeyValueStore K V)
    (hinv : StoreInv serLen H s) :
    StoreInv serLen H (ops.foldl (fun t p => storeInsert serLen H t p.1 p.2) s) := by
  induction ops generalizing s with
  | nil => exact hinv
  | cons p rest ih => exact ih _ (storeInsert_inv serLen H s p.1 p.2 hinv)

/-- Ids whose segments do not contain the key are passed over by the
lookup loop, whatever their Bloom filters answer. -/
theorem mgrGetLoop_skip_append {K V : Type} [LinearOrder K] (H : K → Nat → Nat)
    (mgr : SSTManager K V) (k : K) (is₁ is₂ : List Nat)
    (h : ∀ j ∈ is₁, ∀ f, dictGet mgr.dir j = some f → k ∉ f.records.map Prod.fst) :
    mgrGetLoop H mgr k (is₁ ++ is₂) = mgrGetLoop H mgr k is₂ := by
  induction is₁ with
  | nil => rfl
  | cons i rest ih =>
    have htail := ih (fun j hj => h j (List.mem_cons_of_mem i hj))
    rw [List.cons_append, mgrGetLoop]
    split
    · rcases hget : dictGet mgr.dir i with _ | f
      · exact htail
      · show (match segGet f k with
          | some v' => some v'
          | none => mgrGetLoop H mgr k (rest ++ is₂)) = _
        rcases hsg : segGet f k with _ | v'
        · exact htail
        · exact absurd (List.mem_map_of_mem Prod.fst (segGet_mem f k v' hsg))
            (h i (List.mem_cons_self i rest) f hget)
    · exact htail

/-- A head id whose segment holds the key answers immediately. -/
theorem mgrGetLoop_head_hit {K V : Type} [LinearOrder K] (serLen : K × V → Nat)
    (H : K → Nat → Nat) (mgr : SSTManager K V) (hser : ∀ p, 0 < serLen p)
    (hinv : MgrInv serLen H mgr) (k : K) (v : V) (i₀ : Nat) (is₂ : List Nat)
    (f₀ : SegFile K V) (hf₀ : dictGet mgr.dir i₀ = some f₀)
    (hmem : (k, v) ∈ f₀.records) :
    mgrGetLoop H mgr k (i₀ :: is₂) = some v := by
  obtain ⟨data, hfd, hdne, hds, hdb⟩ := hinv.2.2 i₀ f₀ hf₀
  have hrecs : f₀.records = data := by rw [hfd]; rfl
  have hkdata : k ∈ data.map Prod.fst := by
    rw [← hrecs]
    exact List.mem_map_of_mem Prod.fst hmem
  have hgetd : mgr.bloom_filters.getD i₀ (BloomFilter.init 1000 3) = segBloom H data := by
    rw [List.getD_eq_getElem?_getD, ← List.get?_eq_getElem?, hdb]
    rfl
  rw [mgrGetLoop, hgetd, if_pos (segBloom_contains H data k hkdata), hf₀]
  have hsg : segGet f₀ k = some v := by
    rw [hfd]
    exact segGet_dumpSeg serLen hser mgr.sparse_interval data hds k v
      (by rw [← hrecs]; exact hmem)
  show (match segGet f₀ k with
    | some v' => some v'
    | none => mgrGetLoop H mgr k is₂) = some v
  rw [hsg]

/-- Oldest-first resolution of `SparseIndexSST.get`: the value returned
comes from the lowest id whose segment holds the key. -/
theorem mgrGet_oldest_hit {K V : Type} [LinearOrder K] (serLen : K × V → Nat)
    (H : K → Nat → Nat) (mgr : SSTManager K V) (hser : ∀ p, 0 < serLen p)
    (hinv : MgrInv serLen H mgr) (k : K) (v : V) (i₀ : Nat)
    (hi₀ : i₀ < mgr.file_counter) (f₀ : SegFile K V)
    (hf₀ : dictGet mgr.dir i₀ = some f₀) (hmem : (k, v) ∈ f₀.records)
    (hbefore : ∀ j, j < i₀ → ∀ f, dictGet mgr.dir j = some f →
      k ∉ f.records.map Prod.fst) :
    mgrGet H mgr k = some v := by
  rw [mgrGet]
  have hdecomp : List.range mgr.file_counter =
      List.range i₀ ++ (i₀ :: List.range' (i₀ + 1) (mgr.file_counter - i₀ - 1)) := by
    rw [List.range_eq_range', List.range_eq_range']
    have h2 : mgr.file_counter = (mgr.file_counter - i₀) + i₀ := by omega
    rw [h2, ← List.range'_append 0 i₀ (mgr.file_counter - i₀) 1]
    have h3 : mgr.file_counter - i₀ = (mgr.file_counter - i₀ - 1) + 1 := by omega
    rw [h3, List.range'_succ]
    simp
  rw [hdecomp, mgrGetLoop_skip_append H mgr k _ _
    (fun j hj => hbefore j (List.mem_range.mp hj))]
  exact mgrGetLoop_head_hit serLen H mgr hser hinv k v i₀ _ f₀ hf₀ hmem

/-- C2 amended.  `get` consults tier 1 (first in-order match), then
tier 2, then the segments — but scanned **oldest→newest** (ids from 0
upward), first hit winning: in a reachable state, a key absent from both
tiers is answered from the *lowest*-id segment containing it. -/
theorem get_tier_order_oldest_first {K V : Type} [LinearOrder K] (serLen : K × V → Nat)
    (hser : ∀ p, 0 < serLen p) (H : K → Nat → Nat) (s : KeyValueStore K V)
    (hinv : StoreInv serLen H s) (k : K) :
    (∀ p, (AVLTree.in_order s.avl_tree).find? (fun q => q.1 = k) = some p →
      storeGet H s k = some p.2) ∧
    ((AVLTree.in_order s.avl_tree).find? (fun q => q.1 = k) = none →
      dictContains s.red_black_tree k = true →
      storeGet H s k = dictGet s.red_black_tree k) ∧
    ((AVLTree.in_order s.avl_tree).find? (fun q => q.1 = k) = none →
      dictContains s.red_black_tree k = false →
      ∀ i₀ f₀ v, i₀ < s.sst_manager.file_counter →
        dictGet s.sst_manager.dir i₀ = some f₀ → (k, v) ∈ f₀.records →
        (∀ j, j < i₀ → ∀ f, dictGet s.sst_manager.dir j = some f →
          k ∉ f.records.map Prod.fst) →
        storeGet H s k = some v) := by
  refine ⟨?_, ?_, ?_⟩
  · intro p hp
    rw [storeGet, hp]
  · intro h1 h2
    rw [storeGet, h1, if_pos h2]
  · intro h1 h2 i₀ f₀ v hi₀ hf₀ hmem hbefore
    rw [storeGet, h1, if_neg (by rw [h2]; exact Bool.false_ne_true)]
    exact mgrGet_oldest_hit serLen H s.sst_manager hser hinv.2.2.2 k v i₀ hi₀ f₀
      hf₀ hmem hbefore

/-- C2 counterexample: after inserting `(1,10), (2,20), (2,30)` with
`memory_threshold = 1`, key 2 sits in segments `F0` (value 20) and `F1`
(value 30) and in neither tier; `get` returns 20 — the value from the
**older** (lower-id) segment — not 30 as the claim's newest→oldest scan
would give. -/
theorem get_scan_order_counterexample :
    (AVLTree.in_order ([((1 : Nat), (10 : Nat)), (2, 20), (2, 30)].foldl
        (fun t p => storeInsert (fun _ => 1) (fun k i => k + i) t p.1 p.2)
        (KeyValueStore.init 1 3)).avl_tree).find? (fun q => q.1 = 2) = none ∧
    dictContains ([((1 : Nat), (10 : Nat)), (2, 20), (2, 30)].foldl
        (fun t p => storeInsert (fun _ => 1) (fun k i => k + i) t p.1 p.2)
        (KeyValueStore.init 1 3)).red_black_tree 2 = false ∧
    dictGet ([((1 : Nat), (10 : Nat)), (2, 20), (2, 30)].foldl
        (fun t p => storeInsert (fun _ => 1) (fun k i => k + i) t p.1 p.2)
        (KeyValueStore.init 1 3)).sst_manager.dir 0 =
      some (dumpSeg (fun _ => 1) 3 [(2, 20)]) ∧
    dictGet ([((1 : Nat), (10 : Nat)), (2, 20), (2, 30)].foldl
        (fun t p => storeInsert (fun _ => 1) (fun k i => k + i) t p.1 p.2)
        (KeyValueStore.init 1 3)).sst_manager.dir 1 =
      some (dumpSeg (fun _ => 1) 3 [(2, 30)]) ∧
    storeGet (fun k i => k + i) ([((1 : Nat), (10 : Nat)), (2, 20), (2, 30)].foldl
        (fun t p => storeInsert (fun _ => 1) (fun k i => k + i) t p.1 p.2)
        (KeyValueStore.init 1 3)) 2 = some 20 ∧
    (some (20 : Nat) ≠ some 30) := by
  refine ⟨by decide, by decide, by decide, by decide, by decide, by decide⟩

theorem get_tier_order_oldest_first_witness :
    storeGet (fun k i => k + i) ([((1 : Nat), (10 : Nat)), (2, 20), (2, 30)].foldl
        (fun t p => storeInsert (fun _ => 1) (fun k i => k + i) t p.1 p.2)
        (KeyValueStore.init 1 3)) 2 = some 20 :=
  (get_tier_order_oldest_first (fun _ => 1) (fun _ => Nat.one_pos) (fun k i => k + i)
      _ (foldl_insert_inv (fun _ => 1) (fun k i => k + i) [(1, 10), (2, 20), (2, 30)]
        (KeyValueStore.init 1 3) (storeInv_init (fun _ => 1) (fun k i => k + i) 1 3))
      2).2.2
    (by decide) (by decide) 0 (dumpSeg (fun _ => 1) 3 [(2, 20)]) 20 (by decide)
    (by decide) (by decide) (fun j hj => absurd hj (Nat.not_lt_zero j))

theorem records_foldl_nodup {K V : Type} [DecidableEq K] (records acc : List (K × V))
    (h : (acc.map Prod.fst).Nodup) :
    ((records.foldl (fun d p => dictInsert d p.1 p.2) acc).map Prod.fst).Nodup := by
  induction records generalizing acc with
  | nil => exact h
  | cons p rest ih => exact ih _ (dictInsert_keys_nodup _ _ _ h)

theorem dir_foldl_nodup {K V : Type} [DecidableEq K]
    (dir : List (Nat × SegFile K V)) (acc : List (K × V))
    (h : (acc.map Prod.fst).Nodup) :
    ((dir.foldl (fun a pf => pf.2.records.foldl (fun d p => dictInsert d p.1 p.2) a)
      acc).map Prod.fst).Nodup := by
  induction dir generalizing acc with
  | nil => exact h
  | cons pf rest ih => exact ih _ (records_foldl_nodup _ _ h)

theorem records_foldl_len {K V : Type} [DecidableEq K] (records acc : List (K × V)) :
    acc.length ≤ (records.foldl (fun d p => dictInsert d p.1 p.2) acc).length := by
  induction records generalizing acc with
  | nil => exact le_refl _
  | cons p rest ih => exact le_trans (dictInsert_length_ge _ _ _) (ih _)

theorem records_foldl_pos {K V : Type} [DecidableEq K] (records acc : List (K × V))
    (h : records ≠ []) :
    1 ≤ (records.foldl (fun d p => dictInsert d p.1 p.2) acc).length := by
  cases records with
  | nil => exact absurd rfl h
  | cons p rest =>
    rw [List.foldl_cons]
    exact le_trans (dictInsert_length_pos acc p.1 p.2) (records_foldl_len _ _)

theorem dir_foldl_len {K V : Type} [DecidableEq K]
    (dir : List (Nat × SegFile K V)) (acc : List (K × V)) :
    acc.length ≤ (dir.foldl
      (fun a pf => pf.2.records.foldl (fun d p => dictInsert d p.1 p.2) a) acc).length := by
  induction dir generalizing acc with
  | nil => exact le_refl _
  | cons pf rest ih => exact le_trans (records_foldl_len _ _) (ih _)

theorem dictGet_cons_self {K V : Type} (i : Nat) (f : SegFile K V)
    (rest : List (Nat × SegFile K V)) : dictGet ((i, f) :: rest) i = some f := by
  simp [dictGet, List.find?]

/-- `compact_sst_files` preserves the reachable-state invariant. -/
theorem storeCompact_inv {K V : Type} [LinearOrder K] (serLen : K × V → Nat)
    (H : K → Nat → Nat) (s : KeyValueStore K V) (hinv : StoreInv serLen H s) :
    StoreInv serLen H (storeCompact serLen H s) := by
  obtain ⟨havl, hord, hrbt, hkeys, hblen, hlook⟩ := hinv
  have hres : compactLoop (List.range s.sst_manager.file_counter) s.sst_manager.dir [] =
      (s.sst_manager.dir.foldl
        (fun a pf => pf.2.records.foldl (fun d p => dictInsert d p.1 p.2) a) [],
        []) := by
    rw [← hkeys]
    exact compactLoop_aligned s.sst_manager.dir []
  refine ⟨havl, hord, hrbt, ?_⟩
  show MgrInv serLen H (mgrDump serLen H _ _)
  refine mgrDump_inv serLen H _ _ ?_ ?_
  · refine ⟨?_, rfl, ?_⟩
    · show ((compactLoop (List.range s.sst_manager.file_counter)
        s.sst_manager.dir []).2).map Prod.fst = List.range 0
      rw [hres]
      rfl
    · intro i f h
      have h' : dictGet ((compactLoop (List.range s.sst_manager.file_counter)
          s.sst_manager.dir []).2) i = some f := h
      rw [hres] at h'
      simp [dictGet, List.find?] at h'
  · refine sortKV_sorted_strict _ ?_
    rw [hres]
    exact dir_foldl_nodup _ _ List.nodup_nil

theorem runOps_inv {K V : Type} [LinearOrder K] (serLen : K × V → Nat)
    (H : K → Nat → Nat) (ops : List (Op K V)) (s : KeyValueStore K V)
    (hinv : StoreInv serLen H s) : StoreInv serLen H (runOps serLen H s ops) := by
  induction ops generalizing s with
  | nil => exact hinv
  | cons op rest ih =>
    cases op with
    | ins k v => exact ih _ (storeInsert_inv serLen H s k v hinv)
    | compact => exact ih _ (storeCompact_inv serLen H s hinv)

theorem compactMgr_single {K V : Type} [LinearOrder K] (serLen : K × V → Nat)
    (H : K → Nat → Nat) (mgr : SSTManager K V) (hinv : MgrInv serLen H mgr) :
    (0 < mgr.file_counter →
      (compactMgr serLen H mgr).dir.map Prod.fst = [0] ∧
      (compactMgr serLen H mgr).file_counter = 1) ∧
    (mgr.file_counter = 0 →
      (compactMgr serLen H mgr).dir = [] ∧
      (compactMgr serLen H mgr).file_counter = 0) := by
  obtain ⟨hkeys, hblen, hlook⟩ := hinv
  have hres : compactLoop (List.range mgr.file_counter) mgr.dir [] =
      (mgr.dir.foldl
        (fun a pf => pf.2.records.foldl (fun d p => dictInsert d p.1 p.2) a) [],
        []) := by
    rw [← hkeys]
    exact compactLoop_aligned _ _
  constructor
  · intro hc
    rcases hdir : mgr.dir with _ | ⟨⟨i0, f0⟩, dirRest⟩
    · rw [hdir] at hkeys
      have h0 : mgr.file_counter = 0 := by
        have hx := List.range_eq_nil.mp hkeys.symm
        exact hx
      omega
    · have hget0 : dictGet mgr.dir i0 = some f0 := by
        rw [hdir]
        exact dictGet_cons_self _ _ _
      obtain ⟨d0, hd0, hd0ne, _, _⟩ := hlook i0 f0 hget0
      have hrec0 : f0.records ≠ [] := by
        rw [hd0]
        exact hd0ne
      have hlen1 : 1 ≤ (mgr.dir.foldl
          (fun a pf => pf.2.records.foldl (fun d p => dictInsert d p.1 p.2) a)
          []).length := by
        rw [hdir, List.foldl_cons]
        exact le_trans (records_foldl_pos f0.records _ hrec0) (dir_foldl_len dirRest _)
      have hAne : ¬ (sortKV (compactLoop (List.range mgr.file_counter)
          mgr.dir []).1).isEmpty = true := by
        rw [hres]
        intro hcon
        rw [List.isEmpty_iff] at hcon
        have hl := (sortKV_perm ((mgr.dir.foldl
          (fun a pf => pf.2.records.foldl (fun d p => dictInsert d p.1 p.2) a) [],
          ([] : List (Nat × SegFile K V))).1)).length_eq
        rw [hcon] at hl
        simp only [List.length_nil] at hl
        omega
      constructor
      · show (mgrDump serLen H _ _).dir.map Prod.fst = [0]
        rw [mgrDump, if_neg hAne, hres]
        rfl
      · show (mgrDump serLen H _ _).file_counter = 1
        rw [mgrDump, if_neg hAne]
  · intro hc
    have hdirnil : mgr.dir = [] := by
      rw [hc] at hkeys
      exact List.map_eq_nil.mp hkeys
    have hloop : compactLoop (List.range mgr.file_counter) mgr.dir [] =
        (([] : List (K × V)), ([] : List (Nat × SegFile K V))) := by
      rw [hc, hdirnil]
      rfl
    constructor
    · show (mgrDump serLen H _ _).dir = []
      rw [hloop]
      rfl
    · show (mgrDump serLen H _ _).file_counter = 0
      rw [hloop]
      rfl

/-- C3 amended.  In every reachable state that has at least one segment,
`compact()` leaves exactly one segment file, named `F0.sst` (directory
keys `[0]`, counter 1, so the new segment took id 0); from a state with
zero segments it leaves the directory empty — no `F0.sst` is created,
contrary to the claim's "including a state with zero existing
segments". -/
theorem compact_single_segment {K V : Type} [LinearOrder K] (serLen : K × V → Nat)
    (H : K → Nat → Nat) (s : KeyValueStore K V) (hinv : StoreInv serLen H s) :
    (0 < s.sst_manager.file_counter →
      (storeCompact serLen H s).sst_manager.dir.map Prod.fst = [0] ∧
      (storeCompact serLen H s).sst_manager.file_counter = 1) ∧
    (s.sst_manager.file_counter = 0 →
      (storeCompact serLen H s).sst_manager.dir = [] ∧
      (storeCompact serLen H s).sst_manager.file_counter = 0) :=
  compactMgr_single serLen H s.sst_manager hinv.2.2.2

/-- C3 counterexample: compacting a fresh store (zero segments) leaves
zero segment files, not exactly one. -/
theorem compact_empty_store_no_file :
    (storeCompact (fun _ => (1 : Nat)) (fun _ _ => (0 : Nat))
      (KeyValueStore.init (K := Nat) (V := Nat) 5 3)).sst_manager.dir = [] ∧
    ¬ ((storeCompact (fun _ => (1 : Nat)) (fun _ _ => (0 : Nat))
      (KeyValueStore.init (K := Nat) (V := Nat) 5 3)).sst_manager.dir.length = 1) := by
  exact ⟨by decide, by decide⟩

theorem compact_single_segment_witness :
    (storeCompact (fun _ => 1) (fun k i => k + i)
      ([((1 : Nat), (10 : Nat)), (2, 20)].foldl
        (fun t p => storeInsert (fun _ => 1) (fun k i => k + i) t p.1 p.2)
        (KeyValueStore.init 1 3))).sst_manager.dir.map Prod.fst = [0] ∧
    (storeCompact (fun _ => 1) (fun k i => k + i)
      ([((1 : Nat), (10 : Nat)), (2, 20)].foldl
        (fun t p => storeInsert (fun _ => 1) (fun k i => k + i) t p.1 p.2)
        (KeyValueStore.init 1 3))).sst_manager.file_counter = 1 :=
  (compact_single_segment (fun _ => 1) (fun k i => k + i) _
    (foldl_insert_inv (fun _ => 1) (fun k i => k + i) [(1, 10), (2, 20)]
      (KeyValueStore.init 1 3) (storeInv_init (fun _ => 1) (fun k i => k + i) 1 3))).1
    (by decide)

/-- C10.  Compaction can change what `get` observes: with
`memory_threshold = 1`, after `(1,10), (2,20), (2,30)`, key 2 is absent
from both tiers and lives in `F0` with value 20 and `F1` with value 30;
`get 2` answers 20 before `compact()` (oldest-first scan) and 30 after it
(the compaction fold lets the newest segment win). -/
theorem compact_changes_get :
    (AVLTree.in_order ([((1 : Nat), (10 : Nat)), (2, 20), (2, 30)].foldl
        (fun t p => storeInsert (fun _ => 1) (fun k i => k + i) t p.1 p.2)
        (KeyValueStore.init 1 3)).avl_tree).find? (fun q => q.1 = 2) = none ∧
    dictContains ([((1 : Nat), (10 : Nat)), (2, 20), (2, 30)].foldl
        (fun t p => storeInsert (fun _ => 1) (fun k i => k + i) t p.1 p.2)
        (KeyValueStore.init 1 3)).red_black_tree 2 = false ∧
    dictGet ([((1 : Nat), (10 : Nat)), (2, 20), (2, 30)].foldl
        (fun t p => storeInsert (fun _ => 1) (fun k i => k + i) t p.1 p.2)
        (KeyValueStore.init 1 3)).sst_manager.dir 0 =
      some (dumpSeg (fun _ => 1) 3 [(2, 20)]) ∧
    dictGet ([((1 : Nat), (10 : Nat)), (2, 20), (2, 30)].foldl
        (fun t p => storeInsert (fun _ => 1) (fun k i => k + i) t p.1 p.2)
        (KeyValueStore.init 1 3)).sst_manager.dir 1 =
      some (dumpSeg (fun _ => 1) 3 [(2, 30)]) ∧
    storeGet (fun k i => k + i) ([((1 : Nat), (10 : Nat)), (2, 20), (2, 30)].foldl
        (fun t p => storeInsert (fun _ => 1) (fun k i => k + i) t p.1 p.2)
        (KeyValueStore.init 1 3)) 2 = some 20 ∧
    storeGet (fun k i => k + i) (storeCompact (fun _ => 1) (fun k i => k + i)
      ([((1 : Nat), (10 : Nat)), (2, 20), (2, 30)].foldl
        (fun t p => storeInsert (fun _ => 1) (fun k i => k + i) t p.1 p.2)
        (KeyValueStore.init 1 3))) 2 = some 30 ∧
    some (20 : Nat) ≠ some (30 : Nat) := by
  exact ⟨by decide, by decide, by decide, by decide, by decide, by decide, by decide⟩

theorem dump_write_error_swallowed_witness :
    ([((0 : Nat), (0 : Nat))] : List (Nat × Nat)).isEmpty = false ∧
      mgrDumpE (fun _ => 1) (fun _ _ => 0) true (SSTManager.init 3) [((0 : Nat), (0 : Nat))] =
        .ok { SSTManager.init 3 with file_counter := 0 + 1 } := by
  refine ⟨rfl, ?_⟩
  exact (dump_write_error_swallowed (fun _ => 1) (fun _ _ => 0)
    (SSTManager.init 3) [(0, 0)] true).2 rfl

